import Mathlib

/-!
# ITKTools: the kappa-statistic table loader and column selector

A shallow embedding of `src/kappastatistic/KappaStatisticMainHelper.cxx`
(`ReadInputData`, `GetInputData`) and the properties of the design document
that concern them. The estimator of Fleiss' kappa, which is not among the
sources, is written from the design document; `DetermineHistogramMaximum` of
`src/statisticsonimage/statisticsonimage.h` follows in its own namespace.

Conventions of the embedding.

* A `double` is the rational number it denotes (every finite double is a
  rational); the conversion of the text of a number to the nearest double is
  left as a parameter `strtod`, so that no statement depends on rounding.
* `std::vector<T>` is `List T`; `unsigned int` and `size_t` values are natural
  numbers, and the one subtraction of the source that could wrap is written
  modulo `2 ^ 64`.
* A file system is a map from a path to the text of the file, `none` when the
  path cannot be opened.
* Undefined behaviour of the C++ source (reading a vector outside its bounds,
  converting a double whose truncation is no `unsigned int`) is the result
  `none` of `GetInputData`; `some (ret, matrix)` is a normal return with the
  returned boolean and the final state of the caller's output matrix.
-/

namespace KappaStatistic

/-! ## Formatted input of a `double` from a character stream -/

/-- White space of the classic "C" locale (`std::isspace`): space, horizontal
tab, line feed, vertical tab, form feed and carriage return. -/
def isSpace (c : Char) : Bool :=
  c == ' ' || c == '\t' || c == '\n' || c == Char.ofNat 11 || c == Char.ofNat 12 || c == '\r'

/-- Decimal digit. -/
def isDigit (c : Char) : Bool := c.isDigit

/-- An optional leading `+` or `-`: the sign that was read and the rest. -/
def scanSign : List Char → List Char × List Char
  | [] => ([], [])
  | c :: cs => if c == '+' || c == '-' then ([c], cs) else ([], c :: cs)

/-- An optional fraction: a decimal point and the digits after it. -/
def scanFraction : List Char → List Char × List Char
  | [] => ([], [])
  | c :: cs =>
    if c == '.' then (c :: cs.takeWhile isDigit, cs.dropWhile isDigit) else ([], c :: cs)

/-- An optional exponent: `e` or `E`, an optional sign, and digits. -/
def scanExponent : List Char → List Char × List Char
  | [] => ([], [])
  | c :: cs =>
    if c == 'e' || c == 'E' then
      (c :: (scanSign cs).1 ++ (scanSign cs).2.takeWhile isDigit,
        (scanSign cs).2.dropWhile isDigit)
    else ([], c :: cs)

/-- Stage 2 of `num_get` for a floating value, as the GNU C++ library performs
it in the classic locale: the longest initial run of characters that can
still belong to a decimal floating field is accumulated (sign, digits, at most
one decimal point, and, once a digit has been seen, one exponent mark with its
optional sign and digits); hexadecimal fields and the words `inf` and `nan`
are not accepted. Returns the accumulated field and the characters left in the
stream. -/
def scanFloatField (s : List Char) : List Char × List Char :=
  let sign := (scanSign s).1
  let s1 := (scanSign s).2
  let intPart := s1.takeWhile isDigit
  let s2 := s1.dropWhile isDigit
  let frac := (scanFraction s2).1
  let s3 := (scanFraction s2).2
  if intPart.isEmpty && frac.length ≤ 1 then
    -- no digit of the mantissa was found: an exponent mark is not accepted
    (sign ++ intPart ++ frac, s3)
  else
    (sign ++ intPart ++ frac ++ (scanExponent s3).1, (scanExponent s3).2)

/-- Stage 3 of `num_get`: the accumulated field converts only if it is, as a
whole, a decimal floating literal: an optional sign, digits with an optional
decimal point and at least one digit, and an optional exponent that has at
least one digit. -/
def isFloatLiteral (t : List Char) : Bool :=
  let body := (scanSign t).2
  let intPart := body.takeWhile isDigit
  let afterInt := body.dropWhile isDigit
  let fracDigits := ((scanFraction afterInt).1).drop 1
  let afterFrac := (scanFraction afterInt).2
  (!intPart.isEmpty || !fracDigits.isEmpty) &&
    match afterFrac with
    | [] => true
    | c :: cs =>
      (c == 'e' || c == 'E') && !((scanSign cs).2).isEmpty && ((scanSign cs).2).all isDigit

/-- The extraction `lineSS >> tmp` of a `double`: leading white space is
skipped; at the end of the stream the extraction fails; otherwise a field is
accumulated and converted. `strtod field` is the double denoted by a literal,
`none` when its value is out of the range of `double` (the stream then fails
as well). The result is the value and the rest of the stream, `none` when the
stream has failed. -/
def extractDouble (strtod : List Char → Option ℚ) (s : List Char) : Option (ℚ × List Char) :=
  let s0 := s.dropWhile isSpace
  if s0.isEmpty then none
  else if isFloatLiteral (scanFloatField s0).1 then
    (strtod (scanFloatField s0).1).map fun v => (v, (scanFloatField s0).2)
  else none

/-- The loop `while ( lineSS >> tmp ) linevec.push_back( tmp );` run for at
most `fuel` extractions. Every successful extraction consumes a character, so
`fuel` above the length of the stream is never exhausted
(`readValues_fuel`). -/
def readValues (strtod : List Char → Option ℚ) : Nat → List Char → List ℚ
  | 0, _ => []
  | fuel + 1, s =>
    match extractDouble strtod s with
    | none => []
    | some (v, rest) => v :: readValues strtod fuel rest

/-- The text of `line.c_str()`: the line up to its first NUL character. -/
def cStr (line : List Char) : List Char := line.takeWhile fun c => c != Char.ofNat 0

/-- The row read from one line: `std::istringstream lineSS( line.c_str() )`
followed by the extraction loop. -/
def lineRow (strtod : List Char → Option ℚ) (line : List Char) : List ℚ :=
  readValues strtod ((cStr line).length + 1) (cStr line)

/-- The lines successive calls of `std::getline( file, line )` deliver:
`cur` holds, reversed, the characters of the line being read. A line ends at
a line feed, which is dropped; characters after the last line feed form a
last line; at the end of the file with nothing read `getline` fails. -/
def getlines : List Char → List Char → List (List Char)
  | cur, [] => if cur.isEmpty then [] else [cur.reverse]
  | cur, c :: cs => if c == '\n' then cur.reverse :: getlines [] cs else getlines (c :: cur) cs

/-- A file system: the text of the file at a path, `none` when the path
cannot be opened for reading. -/
abbrev FileSystem := String → Option (List Char)

/-- `ReadInputData( filename, matrix )`: the returned boolean and the final
`matrix`. When the file is open every line is read, its values are extracted
into `linevec`, and `linevec` is pushed back onto `matrix`. -/
def ReadInputData (strtod : List Char → Option ℚ) (fs : FileSystem) (filename : String)
    (matrix : List (List ℚ)) : Bool × List (List ℚ) :=
  match fs filename with
  | some text =>
    (true, (getlines [] text).foldl (fun m line => m ++ [lineRow strtod line]) matrix)
  | none => (false, matrix)

/-! ## Conversion to `unsigned int` -/

/-- Truncation toward zero, the integral part kept by a floating-integral
conversion. -/
def truncate (v : ℚ) : ℤ := if 0 ≤ v then ⌊v⌋ else ⌈v⌉

/-- The number of values of `unsigned int` (32 bits). -/
def UINT_RANGE : Nat := 2 ^ 32

/-- The number of values of `size_t` (64 bits). -/
def SIZE_RANGE : Nat := 2 ^ 64

/-- `static_cast<unsigned int>( v )` for a double `v`: the fractional part is
discarded; the behaviour is undefined (`none`) when the truncated value is not
a value of `unsigned int`. -/
def toUnsignedInt (v : ℚ) : Option Nat :=
  if 0 ≤ truncate v ∧ truncate v < UINT_RANGE then some (truncate v).toNat else none

/-! ## GetInputData -/

/-- The inner loop of the extraction for one requested column `c`:
`matrix[ i ][ j ] = static_cast<unsigned int>( inputMatrix[ j ][ c ] )` for
every row `j`; `none` when a row has no element `c` or a conversion is
undefined. -/
def extractColumn (c : Nat) : List (List ℚ) → Option (List Nat)
  | [] => some []
  | row :: rows =>
    match row[c]? with
    | none => none
    | some v =>
      match toUnsignedInt v with
      | none => none
      | some n =>
        match extractColumn c rows with
        | none => none
        | some rest => some (n :: rest)

/-- The outer loop of the extraction: one output row per requested column, in
the order of `columns`. -/
def extractColumns (inputMatrix : List (List ℚ)) : List Nat → Option (List (List Nat))
  | [] => some []
  | c :: cs =>
    match extractColumn c inputMatrix with
    | none => none
    | some col =>
      match extractColumns inputMatrix cs with
      | none => none
      | some rest => some (col :: rest)

/-- The test `inputMatrix[ 0 ].size() - 1 < columns[ i ]` on `size_t`: the
subtraction is taken modulo `2 ^ 64`. -/
def columnMissing (firstRowSize c : Nat) : Bool :=
  decide ((firstRowSize + SIZE_RANGE - 1) % SIZE_RANGE < c)

/-- `GetInputData( fileName, columns, matrix )`. The result is `none` when the
run has undefined behaviour and `some (ret, matrix)` otherwise, with the
returned boolean and the final value of the output parameter.

The statements of the source, in order:
* `inputMatrix` starts empty and is filled by `ReadInputData`;
* if the read failed the function executes `return 1;`, which in a function
  returning `bool` is `true`;
* `inputMatrix[ 0 ].size() < 2` reads row 0 (out of bounds when there is none);
* `inputMatrix.size() < 2`;
* the loop over `columns` returning false at the first missing column;
* `matrix.resize( 0 ); matrix.resize( columns.size() )` and the extraction.

The loop counters of the source are `unsigned int`; the vectors are taken to
be shorter than `2 ^ 32`, so that no counter wraps. -/
def GetInputData (strtod : List Char → Option ℚ) (fs : FileSystem) (fileName : String)
    (columns : List Nat) (matrix : List (List Nat)) : Option (Bool × List (List Nat)) :=
  let inputMatrix := (ReadInputData strtod fs fileName []).2
  if !(ReadInputData strtod fs fileName []).1 then some (true, matrix)
  else
    match inputMatrix[0]? with
    | none => none
    | some firstRow =>
      if firstRow.length < 2 then some (false, matrix)
      else if inputMatrix.length < 2 then some (false, matrix)
      else if columns.any (columnMissing firstRow.length) then some (false, matrix)
      else
        match extractColumns inputMatrix columns with
        | none => none
        | some out => some (true, out)

/-! ## A concrete conversion and file system for evaluation -/

/-- The number written by a string of decimal digits. -/
def digitsValue (ds : List Char) : Nat := ds.foldl (fun n c => 10 * n + (c.toNat - 48)) 0

/-- The exact value of a decimal floating literal. It is what `strtod` returns
for every literal whose value is a double (such as `1`, `-1.5` or `25e-2`). -/
def exactDecimal (t : List Char) : Option ℚ :=
  let body := (scanSign t).2
  let intPart := body.takeWhile isDigit
  let afterInt := body.dropWhile isDigit
  let fracDigits := ((scanFraction afterInt).1).drop 1
  let afterFrac := (scanFraction afterInt).2
  let expSign := (scanSign (afterFrac.drop 1)).1
  let expDigits := (scanSign (afterFrac.drop 1)).2
  let digits : ℤ := digitsValue (intPart ++ fracDigits)
  let signed : ℤ := if (scanSign t).1 == ['-'] then -digits else digits
  if expSign == ['-'] then
    some (mkRat signed (10 ^ (fracDigits.length + digitsValue expDigits)))
  else
    some (mkRat (signed * 10 ^ digitsValue expDigits) (10 ^ fracDigits.length))

/-- The file system that holds one file, `name` with the text `text`. -/
def oneFile (name : String) (text : String) : FileSystem :=
  fun path => if path = name then some text.toList else none

/-! ## The layout of a numeric file, in the words of the design document

A line is tokenized on runs of white space; leading and trailing white space
is ignored. The definitions below write such a line, and such a file, from its
tokens, so that the loader can be compared with them. -/

/-- White space that can stand inside a line: any white space but the line
feed, which ends the line. -/
def isBlank (c : Char) : Bool := isSpace c && c != '\n'

/-- The text of a line: leading white space `lead`, then every token followed
by the white space that comes after it. -/
def lineText : List Char → List (List Char × List Char) → List Char
  | lead, [] => lead
  | lead, (tok, sep) :: rest => lead ++ tok ++ lineText sep rest

/-- Tokens are separated by runs of white space of any length: the white
space after every token but the last has at least one character; after the
last token it may be empty. -/
def separated : List (List Char × List Char) → Bool
  | [] => true
  | [(_, sep)] => sep.all isBlank
  | (_, sep) :: next :: rest => !sep.isEmpty && sep.all isBlank && separated (next :: rest)

/-- A line all of whose tokens are numeric: white space in front, tokens
separated by white space, every token a decimal floating literal whose value
is a double. -/
def numericLine (strtod : List Char → Option ℚ)
    (l : List Char × List (List Char × List Char)) : Bool :=
  l.1.all isBlank && separated l.2 &&
    l.2.all fun p => isFloatLiteral p.1 && (strtod p.1).isSome

/-- The values of the tokens of a line, in order. -/
def tokenValues (strtod : List Char → Option ℚ) (toks : List (List Char × List Char)) :
    List ℚ :=
  toks.filterMap fun p => strtod p.1

/-- The text of a file from its lines: a line feed after every line, the one
after the last line only when `terminated`. -/
def fileText (terminated : Bool) : List (List Char) → List Char
  | [] => []
  | [l] => if terminated then l ++ ['\n'] else l
  | l :: next :: rest => l ++ '\n' :: fileText terminated (next :: rest)

/-- A character a floating field can hold. -/
def fieldChar (c : Char) : Bool :=
  isDigit c || c == '+' || c == '-' || c == '.' || c == 'e' || c == 'E'

/-- A stream that is at its end or continues with white space. -/
def atBoundary (rest : List Char) : Prop := ∀ c, rest.head? = some c → isSpace c = true

/-! ## Fleiss' kappa, in the words of the design document

The tabulator and the estimator are not among the sources of the repository
(`PrintHelp` only names the `fleiss` test); they are written here from
sections 4.3 and 4.5 of the design document, in exact rational arithmetic. -/

/-- Modelled from the spec: the Agreement Tabulator, Fleiss path (section
4.3), whose code is not among the sources. `ratings` has one row per subject
and one column per rater; the result has one row per subject and one entry per
category `j < K`, the number of raters that gave the subject the label
`minLabel + j`. -/
def fleissCounts (minLabel : ℤ) (K : Nat) (ratings : List (List ℤ)) : List (List Nat) :=
  ratings.map fun row => (List.range K).map fun j => row.count (minLabel + (j : ℤ))

/-- Modelled from the spec: the per-subject observed agreement of section 4.5,
`P_i = (Σ_j n[i][j]² − R) / (R·(R−1))`, for the row `n[i]` of the counts. -/
def fleissSubjectAgreement (R : Nat) (row : List Nat) : ℚ :=
  ((row.map fun (n : Nat) => (n : ℚ) ^ 2).sum - (R : ℚ)) / ((R : ℚ) * ((R : ℚ) - 1))

/-- Modelled from the spec: the mean observed agreement of section 4.5,
`P̄ = (Σ_i P_i) / N`. -/
def fleissObserved (counts : List (List Nat)) (R : Nat) : ℚ :=
  (counts.map (fleissSubjectAgreement R)).sum / (counts.length : ℚ)

/-- Modelled from the spec: the marginal proportion of category `j` of section
4.5, `p_j = (Σ_i n[i][j]) / (N·R)`. -/
def fleissMarginal (counts : List (List Nat)) (R : Nat) (j : Nat) : ℚ :=
  (counts.map fun row => ((row.getD j 0 : Nat) : ℚ)).sum / ((counts.length : ℚ) * (R : ℚ))

/-- Modelled from the spec: the expected agreement under chance of section
4.5, `P̄_e = Σ_j p_j²`, over the `K` categories. -/
def fleissExpected (counts : List (List Nat)) (R K : Nat) : ℚ :=
  ((List.range K).map fun j => fleissMarginal counts R j ^ 2).sum

/-- Modelled from the spec: the failure kinds of the estimator (section 7)
that concern the point estimate. -/
inductive KappaError where
  | degenerateKappa
  deriving DecidableEq, Repr

/-- Modelled from the spec: the Kappa Estimator for Fleiss' kappa (section
4.5), whose code is not among the sources: `κ = (P̄ − P̄_e) / (1 − P̄_e)`, and
the failure `DegenerateKappaError` when `P̄_e = 1`. -/
def fleissKappa (counts : List (List Nat)) (R K : Nat) : Except KappaError ℚ :=
  if fleissExpected counts R K = 1 then Except.error KappaError.degenerateKappa
  else
    Except.ok ((fleissObserved counts R - fleissExpected counts R K)
      / (1 - fleissExpected counts R K))

/-- The entry `n[i][j]` of a matrix of counts, as a rational number (`0`
outside the matrix). -/
def countAt (counts : List (List Nat)) (i j : Nat) : ℚ := (((counts.getD i []).getD j 0 : Nat) : ℚ)

end KappaStatistic

/-! # pxstatisticsonimage: the maximum of the histogram

A shallow embedding of `DetermineHistogramMaximum` of
`src/statisticsonimage/statisticsonimage.h`. The function is a template; the
test `itk::NumericTraits<PixelType>::is_integer` is fixed by the pixel type, so
each of its two branches is one function here. The branch of the floating
pixel types is given twice: in exact arithmetic, and with the roundings of
floating arithmetic as parameters. -/

namespace StatisticsOnImage

/-- How a call of `DetermineHistogramMaximum` ends: without a defined result
(undefined behaviour of a conversion, or a division by zero in exact
arithmetic), with the exception of `itkGenericExceptionMacro`, or normally
with the value left in `histogramMax`. -/
inductive HistogramResult (α : Type) where
  | undefined
  | raised (message : String)
  | returned (histogramMax : α)
  deriving DecidableEq, Repr

/-- The text of the exception. -/
def overflowMessage : String := "Histogram cannot be computed."

/-- `marginalScale`. -/
def marginalScale : ℚ := 100

/-- `epsilon = itk::NumericTraits<PixelType>::epsilon() * 100.0`; the epsilon
of the pixel type is a parameter. -/
def histogramEpsilon (typeEpsilon : ℚ) : ℚ := typeEpsilon * 100

/-- The value of `binsize` after its second assignment:
`vnl_math_max( ( maxPixelValue - minPixelValue ) / numberOfBins, epsilon )`. -/
def histogramBinsize (typeEpsilon maxPixelValue minPixelValue : ℚ) (numberOfBins : Nat) : ℚ :=
  max ((maxPixelValue - minPixelValue) / (numberOfBins : ℚ)) (histogramEpsilon typeEpsilon)

/-- The value of `uppermargin`:
`vnl_math_max( epsilon, binsize / marginalScale )`. -/
def histogramUppermargin (typeEpsilon maxPixelValue minPixelValue : ℚ) (numberOfBins : Nat) :
    ℚ :=
  max (histogramEpsilon typeEpsilon)
    (histogramBinsize typeEpsilon maxPixelValue minPixelValue numberOfBins / marginalScale)

/-- The value assigned to `histogramMax` in the branch of the floating pixel
types: `vnl_math_max( binsize * numberOfBins + minPixelValue,
maxPixelValue + uppermargin )`. -/
def histogramMaxValue (typeEpsilon maxPixelValue minPixelValue : ℚ) (numberOfBins : Nat) : ℚ :=
  max
    (histogramBinsize typeEpsilon maxPixelValue minPixelValue numberOfBins * (numberOfBins : ℚ)
      + minPixelValue)
    (maxPixelValue + histogramUppermargin typeEpsilon maxPixelValue minPixelValue numberOfBins)

/-- `DetermineHistogramMaximum` for a floating pixel type, in exact
arithmetic: the conversions between the pixel type and `double` are the
identity. With `numberOfBins = 0` the quotient has no value in exact
arithmetic. The final check raises the exception when
`histogramMax <= maxPixelValue`. -/
def DetermineHistogramMaximum_floating (typeEpsilon maxPixelValue minPixelValue : ℚ)
    (numberOfBins : Nat) : HistogramResult ℚ :=
  if numberOfBins = 0 then HistogramResult.undefined
  else if histogramMaxValue typeEpsilon maxPixelValue minPixelValue numberOfBins ≤ maxPixelValue
  then HistogramResult.raised overflowMessage
  else
    HistogramResult.returned
      (histogramMaxValue typeEpsilon maxPixelValue minPixelValue numberOfBins)

/-- The number of binary digits of `n`, counted with at most `fuel` halvings. -/
def bitLengthAux : Nat → Nat → Nat
  | 0, _ => 0
  | fuel + 1, n => if n = 0 then 0 else bitLengthAux fuel (n / 2) + 1

/-- The number of binary digits of `n`. -/
def bitLength (n : Nat) : Nat := bitLengthAux n n

/-- The conversion of a natural number to a floating type whose significand
has `precision` bits (53 for `double`): the nearest representable value, ties
to the even significand. Numbers below `2 ^ precision` are kept. -/
def roundToPrecision (precision n : Nat) : Nat :=
  if n < 2 ^ precision then n
  else
    let dropped := bitLength n - precision
    let kept := n / 2 ^ dropped
    let rest := n % 2 ^ dropped
    let half := 2 ^ (dropped - 1)
    if rest < half then kept * 2 ^ dropped
    else if half < rest then (kept + 1) * 2 ^ dropped
    else if kept % 2 = 0 then kept * 2 ^ dropped
    else (kept + 1) * 2 ^ dropped

/-- `DetermineHistogramMaximum` for an unsigned integer pixel type of `width`
bits, on a platform whose `int` has `intWidth` bits (32). `RealPixelType`, the
`ScalarRealType` of the pixel type, is declared outside the sources; the number
of bits of its significand is the parameter `precision` (`double`: 53).

The statements of the source, in order: `uppermargin` is `One`. The sum
`maxPixelValue + uppermargin` is computed in the pixel type and wraps modulo
`2 ^ width` when the pixel type is at least as wide as `int` (`unsigned int`,
`unsigned long`); for a narrower pixel type both operands are promoted to
`int`, the sum does not wrap, and it is undefined if it is no value of `int`.
The sum is converted to `RealPixelType`, and from there to the pixel type of
`histogramMax`, which is undefined when the value is no value of the pixel
type. The final check raises the exception when
`histogramMax <= maxPixelValue`. The minimum and the number of bins are not
read. -/
def DetermineHistogramMaximum_integer (width intWidth precision : Nat)
    (maxPixelValue _minPixelValue _numberOfBins : Nat) : HistogramResult Nat :=
  let uppermargin := 1
  if width < intWidth ∧ 2 ^ (intWidth - 1) ≤ maxPixelValue + uppermargin then
    HistogramResult.undefined
  else
    let sum :=
      if width < intWidth then maxPixelValue + uppermargin
      else (maxPixelValue + uppermargin) % 2 ^ width
    let real := roundToPrecision precision sum
    if 2 ^ width ≤ real then HistogramResult.undefined
    else if real ≤ maxPixelValue then HistogramResult.raised overflowMessage
    else HistogramResult.returned real

/-! ### The floating branch with the roundings of floating arithmetic

In the definitions below every arithmetic operation of the source is followed
by the rounding of its type: `toDouble` gives the `double` nearest to a real
number, `toPixel` the value of the pixel type nearest to it (for the pixel
type `double` the two are the same function). Both are parameters; exact
arithmetic is the case where both are the identity. Results are taken to stay
in the finite range of the types. -/

/-- `epsilon = itk::NumericTraits<PixelType>::epsilon() * 100.0`, a product of
two doubles. -/
def roundedEpsilon (toDouble : ℚ → ℚ) (typeEpsilon : ℚ) : ℚ := toDouble (typeEpsilon * 100)

/-- `binsize`: the difference `maxPixelValue - minPixelValue` is computed in
the pixel type, its conversion to `double` is exact, the quotient by
`static_cast<double>( numberOfBins )` is a quotient of doubles; then
`vnl_math_max( binsize, epsilon )`. -/
def roundedBinsize (toDouble toPixel : ℚ → ℚ) (typeEpsilon maxPixelValue minPixelValue : ℚ)
    (numberOfBins : Nat) : ℚ :=
  max (toDouble (toPixel (maxPixelValue - minPixelValue) / (numberOfBins : ℚ)))
    (roundedEpsilon toDouble typeEpsilon)

/-- `uppermargin = vnl_math_max( epsilon, binsize / marginalScale )`, with a
quotient of doubles. -/
def roundedUppermargin (toDouble toPixel : ℚ → ℚ)
    (typeEpsilon maxPixelValue minPixelValue : ℚ) (numberOfBins : Nat) : ℚ :=
  max (roundedEpsilon toDouble typeEpsilon)
    (toDouble
      (roundedBinsize toDouble toPixel typeEpsilon maxPixelValue minPixelValue numberOfBins
        / marginalScale))

/-- The value stored in `histogramMax`: the product `binsize * numberOfBins`,
the sum with `minPixelValue` and the sum `maxPixelValue + uppermargin` are
operations on doubles; the larger of the two sums is converted to
`RealPixelType` (`double`, no change) and then to the pixel type of
`histogramMax`. -/
def roundedHistogramMax (toDouble toPixel : ℚ → ℚ)
    (typeEpsilon maxPixelValue minPixelValue : ℚ) (numberOfBins : Nat) : ℚ :=
  toPixel
    (max
      (toDouble
        (toDouble
            (roundedBinsize toDouble toPixel typeEpsilon maxPixelValue minPixelValue
              numberOfBins * (numberOfBins : ℚ))
          + minPixelValue))
      (toDouble
        (maxPixelValue
          + roundedUppermargin toDouble toPixel typeEpsilon maxPixelValue minPixelValue
            numberOfBins)))

/-- `DetermineHistogramMaximum` for a floating pixel type, with the roundings
of floating arithmetic. With `numberOfBins = 0` the quotient is no finite
number. The final check raises the exception when
`histogramMax <= maxPixelValue`. -/
def DetermineHistogramMaximum_rounded (toDouble toPixel : ℚ → ℚ)
    (typeEpsilon maxPixelValue minPixelValue : ℚ) (numberOfBins : Nat) : HistogramResult ℚ :=
  if numberOfBins = 0 then HistogramResult.undefined
  else if roundedHistogramMax toDouble toPixel typeEpsilon maxPixelValue minPixelValue
      numberOfBins ≤ maxPixelValue
  then HistogramResult.raised overflowMessage
  else
    HistogramResult.returned
      (roundedHistogramMax toDouble toPixel typeEpsilon maxPixelValue minPixelValue
        numberOfBins)

end StatisticsOnImage

namespace KappaStatistic

/-! ## Basic facts about the loader -/

/-- The push-back loop appends one row per line, in order. -/
theorem foldl_push_rows (strtod : List Char → Option ℚ) (lines : List (List Char))
    (matrix : List (List ℚ)) :
    lines.foldl (fun m line => m ++ [lineRow strtod line]) matrix
      = matrix ++ lines.map (lineRow strtod) := by
  induction lines generalizing matrix with
  | nil => simp
  | cons l ls ih => simp [List.foldl_cons, ih]

/-- Reading a file that opens. -/
theorem ReadInputData_open (strtod : List Char → Option ℚ) (fs : FileSystem)
    (filename : String) (matrix : List (List ℚ)) (text : List Char)
    (h : fs filename = some text) :
    ReadInputData strtod fs filename matrix
      = (true, matrix ++ (getlines [] text).map (lineRow strtod)) := by
  simp [ReadInputData, h, foldl_push_rows]

/-- Reading a path that cannot be opened. -/
theorem ReadInputData_closed (strtod : List Char → Option ℚ) (fs : FileSystem)
    (filename : String) (matrix : List (List ℚ)) (h : fs filename = none) :
    ReadInputData strtod fs filename matrix = (false, matrix) := by
  simp [ReadInputData, h]

/-- The boolean returned by `ReadInputData` does not depend on the matrix
passed in. -/
theorem ReadInputData_fst (strtod : List Char → Option ℚ) (fs : FileSystem)
    (filename : String) (matrix : List (List ℚ)) :
    (ReadInputData strtod fs filename matrix).1 = (fs filename).isSome := by
  cases h : fs filename <;> simp [ReadInputData, h]

/-- `GetInputData` after a successful read of the table `table`. -/
theorem GetInputData_of_read (strtod : List Char → Option ℚ) (fs : FileSystem)
    (fileName : String) (columns : List Nat) (matrix : List (List Nat))
    (table : List (List ℚ)) (h : ReadInputData strtod fs fileName [] = (true, table)) :
    GetInputData strtod fs fileName columns matrix =
      match table[0]? with
      | none => none
      | some firstRow =>
        if firstRow.length < 2 then some (false, matrix)
        else if table.length < 2 then some (false, matrix)
        else if columns.any (columnMissing firstRow.length) then some (false, matrix)
        else
          match extractColumns table columns with
          | none => none
          | some out => some (true, out) := by
  simp only [GetInputData, h, Bool.not_true, Bool.false_eq_true, if_false]

/-- Under `1 ≤ size < 2 ^ 64` the subtraction `size - 1` does not wrap, and
the column test is `size ≤ c`. -/
theorem columnMissing_iff (size c : Nat) (h1 : 1 ≤ size) (h2 : size < SIZE_RANGE) :
    columnMissing size c = true ↔ size ≤ c := by
  unfold columnMissing
  have : (size + SIZE_RANGE - 1) % SIZE_RANGE = size - 1 := by
    have e : size + SIZE_RANGE - 1 = (size - 1) + SIZE_RANGE := by omega
    rw [e, Nat.add_mod_right, Nat.mod_eq_of_lt (by omega)]
  rw [this]
  simp only [decide_eq_true_eq]
  omega

/-- The column loop fails exactly when some requested index is not below the
size of the first row. -/
theorem any_columnMissing_iff (size : Nat) (columns : List Nat) (h1 : 1 ≤ size)
    (h2 : size < SIZE_RANGE) :
    columns.any (columnMissing size) = true ↔ ∃ c ∈ columns, size ≤ c := by
  simp only [List.any_eq_true]
  constructor
  · rintro ⟨c, hc, h⟩
    exact ⟨c, hc, (columnMissing_iff size c h1 h2).1 h⟩
  · rintro ⟨c, hc, h⟩
    exact ⟨c, hc, (columnMissing_iff size c h1 h2).2 h⟩

/-! ## The extraction loops -/

/-- What a successful inner loop has stored for column `c`. -/
theorem extractColumn_some (c : Nat) (table : List (List ℚ)) (col : List Nat)
    (h : extractColumn c table = some col) :
    col.length = table.length ∧
      ∀ (j : Nat) (row : List ℚ), table[j]? = some row →
        ∃ v n, row[c]? = some v ∧ toUnsignedInt v = some n ∧ col[j]? = some n := by
  induction table generalizing col with
  | nil =>
    simp only [extractColumn, Option.some.injEq] at h
    subst h
    simp
  | cons r rs ih =>
    unfold extractColumn at h
    cases hv : r[c]? with
    | none => simp [hv] at h
    | some v =>
      cases hn : toUnsignedInt v with
      | none => simp [hv, hn] at h
      | some n =>
        cases hr : extractColumn c rs with
        | none => simp [hv, hn, hr] at h
        | some rest =>
          simp only [hv, hn, hr, Option.some.injEq] at h
          subst h
          obtain ⟨hl, hc⟩ := ih rest hr
          refine ⟨by simp [hl], ?_⟩
          intro j row hj
          cases j with
          | zero =>
            simp only [List.getElem?_cons_zero, Option.some.injEq] at hj
            subst hj
            exact ⟨v, n, hv, hn, by simp⟩
          | succ k =>
            simp only [List.getElem?_cons_succ] at hj
            obtain ⟨v1, n1, h1, h2, h3⟩ := hc k row hj
            exact ⟨v1, n1, h1, h2, by simpa using h3⟩

/-- The inner loop is defined when every row holds a convertible value at
index `c`. -/
theorem extractColumn_defined (c : Nat) (table : List (List ℚ))
    (h : ∀ row ∈ table, ∃ v, row[c]? = some v ∧ (toUnsignedInt v).isSome = true) :
    ∃ col, extractColumn c table = some col := by
  induction table with
  | nil => exact ⟨[], rfl⟩
  | cons r rs ih =>
    obtain ⟨v, hv, hn⟩ := h r (List.mem_cons_self r rs)
    obtain ⟨n, hn⟩ := Option.isSome_iff_exists.1 hn
    obtain ⟨rest, hr⟩ := ih fun row hrow => h row (List.mem_cons_of_mem r hrow)
    exact ⟨n :: rest, by simp [extractColumn, hv, hn, hr]⟩

/-- What a successful extraction has stored: one row per requested column, in
the order of the request. -/
theorem extractColumns_some (table : List (List ℚ)) (columns : List Nat)
    (out : List (List Nat)) (h : extractColumns table columns = some out) :
    out.length = columns.length ∧
      ∀ (i c : Nat), columns[i]? = some c →
        ∃ col, out[i]? = some col ∧ extractColumn c table = some col := by
  induction columns generalizing out with
  | nil =>
    simp only [extractColumns, Option.some.injEq] at h
    subst h
    simp
  | cons c cs ih =>
    unfold extractColumns at h
    cases hc : extractColumn c table with
    | none => simp [hc] at h
    | some col =>
      cases hr : extractColumns table cs with
      | none => simp [hc, hr] at h
      | some rest =>
        simp only [hc, hr, Option.some.injEq] at h
        subst h
        obtain ⟨hl, hi⟩ := ih rest hr
        refine ⟨by simp [hl], ?_⟩
        intro i c1 hi1
        cases i with
        | zero =>
          simp only [List.getElem?_cons_zero, Option.some.injEq] at hi1
          subst hi1
          exact ⟨col, by simp, hc⟩
        | succ k =>
          simp only [List.getElem?_cons_succ] at hi1
          obtain ⟨col1, h1, h2⟩ := hi k c1 hi1
          exact ⟨col1, by simpa using h1, h2⟩

/-- The extraction is defined when every requested column is. -/
theorem extractColumns_defined (table : List (List ℚ)) (columns : List Nat)
    (h : ∀ c ∈ columns, ∃ col, extractColumn c table = some col) :
    ∃ out, extractColumns table columns = some out := by
  induction columns with
  | nil => exact ⟨[], rfl⟩
  | cons c cs ih =>
    obtain ⟨col, hc⟩ := h c (List.mem_cons_self c cs)
    obtain ⟨rest, hr⟩ := ih fun c1 hc1 => h c1 (List.mem_cons_of_mem c hc1)
    exact ⟨col :: rest, by simp [extractColumns, hc, hr]⟩

/-! ## Truncation -/

/-- Truncation toward zero never moves a value away from zero and moves it by
less than one. -/
theorem truncate_spec (v : ℚ) :
    |((truncate v : ℤ) : ℚ)| ≤ |v| ∧ |v - (truncate v : ℤ)| < 1 := by
  unfold truncate
  by_cases h : 0 ≤ v
  · simp only [h, if_true]
    have h1 : ((⌊v⌋ : ℤ) : ℚ) ≤ v := Int.floor_le v
    have h2 : v < (⌊v⌋ : ℤ) + 1 := Int.lt_floor_add_one v
    have h3 : (0 : ℚ) ≤ (⌊v⌋ : ℤ) := by exact_mod_cast Int.floor_nonneg.2 h
    rw [abs_of_nonneg h3, abs_of_nonneg h, abs_of_nonneg (by linarith)]
    constructor <;> linarith
  · simp only [h, if_false]
    have hv : v < 0 := lt_of_not_ge h
    have h1 : v ≤ (⌈v⌉ : ℤ) := Int.le_ceil v
    have h2 : ((⌈v⌉ : ℤ) : ℚ) < v + 1 := Int.ceil_lt_add_one v
    have h3 : ((⌈v⌉ : ℤ) : ℚ) ≤ 0 := by exact_mod_cast Int.ceil_le.2 (by simpa using hv.le)
    rw [abs_of_nonpos h3, abs_of_neg hv, abs_of_nonpos (by linarith)]
    constructor <;> linarith

/-- A defined conversion stores the truncation of the value. -/
theorem toUnsignedInt_some (v : ℚ) (n : Nat) (h : toUnsignedInt v = some n) :
    (n : ℤ) = truncate v ∧ n < UINT_RANGE := by
  unfold toUnsignedInt at h
  split at h
  · rename_i hr
    simp only [Option.some.injEq] at h
    subst h
    refine ⟨Int.toNat_of_nonneg hr.1, ?_⟩
    have := hr.2
    omega
  · simp at h

/-- The conversion is defined exactly for the values above `-1` and below
`2 ^ 32`. -/
theorem toUnsignedInt_defined_iff (v : ℚ) :
    (toUnsignedInt v).isSome = true ↔ -1 < v ∧ v < (UINT_RANGE : ℚ) := by
  unfold toUnsignedInt truncate
  by_cases h : 0 ≤ v
  · simp only [h, if_true]
    have h0 : 0 ≤ ⌊v⌋ := Int.floor_nonneg.2 h
    constructor
    · intro hs
      split at hs
      · rename_i hr
        refine ⟨by linarith, ?_⟩
        have : v < (⌊v⌋ : ℤ) + 1 := Int.lt_floor_add_one v
        have h2 : ((⌊v⌋ : ℤ) : ℚ) + 1 ≤ (UINT_RANGE : ℚ) := by
          have := hr.2
          exact_mod_cast this
        linarith
      · simp at hs
    · rintro ⟨_, hu⟩
      have : ⌊v⌋ < (UINT_RANGE : ℤ) := by
        have : ((⌊v⌋ : ℤ) : ℚ) < (UINT_RANGE : ℚ) := lt_of_le_of_lt (Int.floor_le v) hu
        exact_mod_cast this
      simp [h0, this]
  · simp only [h, if_false]
    have hv : v < 0 := lt_of_not_ge h
    have hc : ⌈v⌉ ≤ 0 := Int.ceil_le.2 (by simpa using hv.le)
    constructor
    · intro hs
      split at hs
      · rename_i hr
        have h0 : ⌈v⌉ = 0 := le_antisymm hc hr.1
        have : ((⌈v⌉ : ℤ) : ℚ) < v + 1 := Int.ceil_lt_add_one v
        rw [h0, Int.cast_zero] at this
        refine ⟨by linarith, ?_⟩
        have : (0 : ℚ) ≤ (UINT_RANGE : ℚ) := by positivity
        linarith
      · simp at hs
    · rintro ⟨hl, _⟩
      have h0 : 0 ≤ ⌈v⌉ := by
        have : (-1 : ℤ) < ⌈v⌉ := Int.lt_ceil.2 (by simpa using hl)
        omega
      have : ⌈v⌉ < (UINT_RANGE : ℤ) := lt_of_le_of_lt hc (by simp [UINT_RANGE])
      simp [h0, this]

/-! ## The outcomes of `GetInputData` -/

/-- When the path cannot be opened the function returns `true` (`return 1;`)
and leaves the output matrix alone. -/
theorem GetInputData_closed (strtod : List Char → Option ℚ) (fs : FileSystem)
    (fileName : String) (columns : List Nat) (matrix : List (List Nat))
    (h : fs fileName = none) :
    GetInputData strtod fs fileName columns matrix = some (true, matrix) := by
  simp [GetInputData, ReadInputData_closed strtod fs fileName [] h]

/-- After a successful read of a table with a first row, the function returns
false exactly in three cases. -/
theorem GetInputData_false_iff (strtod : List Char → Option ℚ) (fs : FileSystem)
    (fileName : String) (columns : List Nat) (matrix : List (List Nat))
    (table : List (List ℚ)) (firstRow : List ℚ)
    (hread : ReadInputData strtod fs fileName [] = (true, table))
    (hrow : table[0]? = some firstRow) (hsize : firstRow.length < SIZE_RANGE) :
    (GetInputData strtod fs fileName columns matrix).map Prod.fst = some false ↔
      firstRow.length < 2 ∨ table.length < 2 ∨ ∃ c ∈ columns, firstRow.length ≤ c := by
  rw [GetInputData_of_read strtod fs fileName columns matrix table hread]
  simp only [hrow]
  by_cases h1 : firstRow.length < 2
  · simp [h1]
  by_cases h2 : table.length < 2
  · simp [h1, h2]
  have hany := any_columnMissing_iff firstRow.length columns (by omega) hsize
  by_cases h3 : columns.any (columnMissing firstRow.length) = true
  · simp only [h1, h2, h3, if_false, if_true, Option.map_some', false_or, true_iff]
    exact hany.1 h3
  · have hno : ¬ ∃ c ∈ columns, firstRow.length ≤ c := fun h => h3 (hany.2 h)
    simp only [h1, h2, h3, if_false, false_or, hno, iff_false]
    cases extractColumns table columns <;> simp

/-- After a successful read, a return of `true` means that all three checks
passed and that the extraction is the output. -/
theorem GetInputData_true (strtod : List Char → Option ℚ) (fs : FileSystem)
    (fileName : String) (columns : List Nat) (matrix out : List (List Nat))
    (table : List (List ℚ))
    (hread : ReadInputData strtod fs fileName [] = (true, table))
    (hok : GetInputData strtod fs fileName columns matrix = some (true, out)) :
    extractColumns table columns = some out ∧ 2 ≤ table.length ∧
      ∃ firstRow, table[0]? = some firstRow ∧ 2 ≤ firstRow.length ∧
        columns.any (columnMissing firstRow.length) = false := by
  rw [GetInputData_of_read strtod fs fileName columns matrix table hread] at hok
  cases hrow : table[0]? with
  | none => simp [hrow] at hok
  | some firstRow =>
    simp only [hrow] at hok
    by_cases h1 : firstRow.length < 2
    · simp [h1] at hok
    by_cases h2 : table.length < 2
    · simp [h1, h2] at hok
    by_cases h3 : columns.any (columnMissing firstRow.length) = true
    · simp [h1, h2, h3] at hok
    have h3f : columns.any (columnMissing firstRow.length) = false := by simpa using h3
    simp only [h1, h2, h3f, if_false, Bool.false_eq_true] at hok
    cases he : extractColumns table columns with
    | none => simp [he] at hok
    | some o =>
      simp only [he, Option.some.injEq, Prod.mk.injEq, true_and] at hok
      subst hok
      exact ⟨rfl, by omega, firstRow, rfl, by omega, h3f⟩

/-- After a successful read that passes the three checks, the function
returns whatever the extraction gives. -/
theorem GetInputData_checked (strtod : List Char → Option ℚ) (fs : FileSystem)
    (fileName : String) (columns : List Nat) (matrix : List (List Nat))
    (table : List (List ℚ)) (firstRow : List ℚ)
    (hread : ReadInputData strtod fs fileName [] = (true, table))
    (hrow : table[0]? = some firstRow) (hsize : firstRow.length < SIZE_RANGE)
    (h1 : 2 ≤ firstRow.length) (h2 : 2 ≤ table.length)
    (h3 : ∀ c ∈ columns, c < firstRow.length) :
    GetInputData strtod fs fileName columns matrix =
      (extractColumns table columns).map fun out => (true, out) := by
  rw [GetInputData_of_read strtod fs fileName columns matrix table hread]
  simp only [hrow]
  have hany := any_columnMissing_iff firstRow.length columns (by omega) hsize
  have h3' : ¬ columns.any (columnMissing firstRow.length) = true := by
    intro h
    obtain ⟨c, hc, hle⟩ := hany.1 h
    have := h3 c hc
    omega
  have h1' : ¬ firstRow.length < 2 := by omega
  have h2' : ¬ table.length < 2 := by omega
  simp only [h1', h2', h3', if_false]
  cases extractColumns table columns <;> rfl

/-- After a successful read the outcome is one of three, fixed by the table
and the request alone: undefined, false with the matrix untouched, or true
with a matrix that replaces the old one. -/
theorem GetInputData_shape (strtod : List Char → Option ℚ) (fs : FileSystem)
    (fileName : String) (columns : List Nat) (table : List (List ℚ))
    (hread : ReadInputData strtod fs fileName [] = (true, table)) :
    ∃ r : Option (Option (List (List Nat))), ∀ matrix : List (List Nat),
      GetInputData strtod fs fileName columns matrix =
        match r with
        | none => none
        | some none => some (false, matrix)
        | some (some out) => some (true, out) := by
  cases hrow : table[0]? with
  | none =>
    exact ⟨none, fun m => by
      rw [GetInputData_of_read strtod fs fileName columns m table hread, hrow]⟩
  | some firstRow =>
    by_cases h1 : firstRow.length < 2
    · exact ⟨some none, fun m => by
        rw [GetInputData_of_read strtod fs fileName columns m table hread, hrow]
        simp [h1]⟩
    by_cases h2 : table.length < 2
    · exact ⟨some none, fun m => by
        rw [GetInputData_of_read strtod fs fileName columns m table hread, hrow]
        simp [h1, h2]⟩
    by_cases h3 : columns.any (columnMissing firstRow.length) = true
    · exact ⟨some none, fun m => by
        rw [GetInputData_of_read strtod fs fileName columns m table hread, hrow]
        simp only [h1, h2, h3, if_false, if_true]⟩
    cases he : extractColumns table columns with
    | none =>
      exact ⟨none, fun m => by
        rw [GetInputData_of_read strtod fs fileName columns m table hread, hrow]
        simp [h1, h2, h3, he]⟩
    | some out =>
      exact ⟨some (some out), fun m => by
        rw [GetInputData_of_read strtod fs fileName columns m table hread, hrow]
        simp [h1, h2, h3, he]⟩

/-- The inner loop is undefined as soon as one row has no element `c`. -/
theorem extractColumn_short_row (c : Nat) (table : List (List ℚ))
    (h : ∃ row ∈ table, row.length ≤ c) : extractColumn c table = none := by
  induction table with
  | nil => simp at h
  | cons r rs ih =>
    unfold extractColumn
    cases hv : r[c]? with
    | none => rfl
    | some v =>
      have hr : ¬ r.length ≤ c := by
        intro hle
        rw [List.getElem?_eq_none hle] at hv
        cases hv
      have hrest : extractColumn c rs = none := by
        apply ih
        obtain ⟨row, hrow, hle⟩ := h
        rcases List.mem_cons.1 hrow with e | e
        · exact absurd (e ▸ hle) hr
        · exact ⟨row, e, hle⟩
      rw [hrest]
      dsimp only
      split <;> rfl

/-- The extraction is undefined as soon as one requested column is. -/
theorem extractColumns_undefined (table : List (List ℚ)) (columns : List Nat)
    (h : ∃ c ∈ columns, extractColumn c table = none) :
    extractColumns table columns = none := by
  induction columns with
  | nil => simp at h
  | cons c cs ih =>
    unfold extractColumns
    cases hc : extractColumn c table with
    | none => rfl
    | some col =>
      have hrest : extractColumns table cs = none := by
        apply ih
        obtain ⟨c1, hc1, hn⟩ := h
        rcases List.mem_cons.1 hc1 with e | e
        · rw [e, hc] at hn
          cases hn
        · exact ⟨c1, e, hn⟩
      simp [hrest]

/-! ## Scanning a floating field -/

/-- The six white-space characters. -/
theorem isSpace_cases (c : Char) (h : isSpace c = true) :
    c = ' ' ∨ c = '\t' ∨ c = '\n' ∨ c = Char.ofNat 11 ∨ c = Char.ofNat 12 ∨ c = '\r' := by
  simpa [isSpace, or_assoc] using h

/-- White space is no character of a floating field. -/
theorem fieldChar_of_isSpace (c : Char) (h : isSpace c = true) : fieldChar c = false := by
  rcases isSpace_cases c h with e | e | e | e | e | e <;> subst e <;> decide

/-- White space is no digit. -/
theorem isDigit_of_isSpace (c : Char) (h : isSpace c = true) : isDigit c = false := by
  rcases isSpace_cases c h with e | e | e | e | e | e <;> subst e <;> decide

/-- Reading while `p` holds stops where the field ends. -/
theorem takeWhile_append_stop (p : Char → Bool) (l rest : List Char)
    (h : ∀ c, rest.head? = some c → p c = false) :
    (l ++ rest).takeWhile p = l.takeWhile p ∧
      (l ++ rest).dropWhile p = l.dropWhile p ++ rest := by
  induction l with
  | nil =>
    cases rest with
    | nil => simp
    | cons c r => simp [List.takeWhile_cons, List.dropWhile_cons, h c rfl]
  | cons a l ih =>
    cases hp : p a <;> simp [List.takeWhile_cons, List.dropWhile_cons, hp, ih]

/-- A sign scanner splits its input. -/
theorem scanSign_split (s : List Char) : (scanSign s).1 ++ (scanSign s).2 = s := by
  cases s with
  | nil => rfl
  | cons c cs =>
    simp only [scanSign]
    split <;> rfl

/-- The sign that was read holds only field characters. -/
theorem scanSign_chars (s : List Char) : ∀ c ∈ (scanSign s).1, fieldChar c = true := by
  cases s with
  | nil => simp [scanSign]
  | cons a cs =>
    simp only [scanSign]
    split
    · rename_i h
      intro c hc
      simp only [List.mem_singleton] at hc
      subst hc
      simp only [Bool.or_eq_true, beq_iff_eq] at h
      rcases h with e | e <;> subst e <;> decide
    · simp

/-- Scanning a sign is not affected by what follows a boundary. -/
theorem scanSign_append (t rest : List Char) (h : atBoundary rest) :
    scanSign (t ++ rest) = ((scanSign t).1, (scanSign t).2 ++ rest) := by
  cases t with
  | nil =>
    cases rest with
    | nil => rfl
    | cons c r =>
      have hs := h c rfl
      have : (c == '+' || c == '-') = false := by
        rcases isSpace_cases c hs with e | e | e | e | e | e <;> subst e <;> decide
      simp [scanSign, this]
  | cons a l =>
    simp only [List.cons_append, scanSign]
    split <;> rfl

/-- A fraction scanner splits its input. -/
theorem scanFraction_split (s : List Char) :
    (scanFraction s).1 ++ (scanFraction s).2 = s := by
  cases s with
  | nil => rfl
  | cons c cs =>
    simp only [scanFraction]
    split
    · simp [List.takeWhile_append_dropWhile]
    · rfl

/-- Scanning a fraction is not affected by what follows a boundary. -/
theorem scanFraction_append (t rest : List Char) (h : atBoundary rest) :
    scanFraction (t ++ rest) = ((scanFraction t).1, (scanFraction t).2 ++ rest) := by
  have hd : ∀ c, rest.head? = some c → isDigit c = false :=
    fun c hc => isDigit_of_isSpace c (h c hc)
  cases t with
  | nil =>
    cases rest with
    | nil => rfl
    | cons c r =>
      have hs := h c rfl
      have : (c == '.') = false := by
        rcases isSpace_cases c hs with e | e | e | e | e | e <;> subst e <;> decide
      simp [scanFraction, this]
  | cons a l =>
    simp only [List.cons_append, scanFraction]
    split
    · rw [(takeWhile_append_stop isDigit l rest hd).1,
        (takeWhile_append_stop isDigit l rest hd).2]
    · rfl

/-- An exponent scanner splits its input. -/
theorem scanExponent_split (s : List Char) :
    (scanExponent s).1 ++ (scanExponent s).2 = s := by
  cases s with
  | nil => rfl
  | cons c cs =>
    simp only [scanExponent]
    split
    · simp only [List.cons_append, List.append_assoc, List.takeWhile_append_dropWhile,
        scanSign_split]
    · rfl

/-- Scanning an exponent is not affected by what follows a boundary. -/
theorem scanExponent_append (t rest : List Char) (h : atBoundary rest) :
    scanExponent (t ++ rest) = ((scanExponent t).1, (scanExponent t).2 ++ rest) := by
  have hd : ∀ c, rest.head? = some c → isDigit c = false :=
    fun c hc => isDigit_of_isSpace c (h c hc)
  cases t with
  | nil =>
    cases rest with
    | nil => rfl
    | cons c r =>
      have hs := h c rfl
      have : (c == 'e' || c == 'E') = false := by
        rcases isSpace_cases c hs with e | e | e | e | e | e <;> subst e <;> decide
      simp [scanExponent, this]
  | cons a l =>
    simp only [List.cons_append, scanExponent]
    split
    · rw [scanSign_append l rest h]
      simp only
      rw [(takeWhile_append_stop isDigit _ rest hd).1,
        (takeWhile_append_stop isDigit _ rest hd).2]
    · rfl

/-- The field scanner splits its input: nothing is lost and nothing is
reordered. -/
theorem scanFloatField_split (s : List Char) :
    (scanFloatField s).1 ++ (scanFloatField s).2 = s := by
  simp only [scanFloatField]
  have h1 := scanSign_split s
  have h2 := List.takeWhile_append_dropWhile isDigit (scanSign s).2
  have h3 := scanFraction_split ((scanSign s).2.dropWhile isDigit)
  have h4 := scanExponent_split (scanFraction ((scanSign s).2.dropWhile isDigit)).2
  split
  · simp only [List.append_assoc]
    rw [h3, h2, h1]
  · simp only [List.append_assoc]
    rw [h4, h3, h2, h1]

/-- Scanning a field is not affected by what follows a boundary. -/
theorem scanFloatField_append (t rest : List Char) (h : atBoundary rest) :
    scanFloatField (t ++ rest) = ((scanFloatField t).1, (scanFloatField t).2 ++ rest) := by
  have hd : ∀ c, rest.head? = some c → isDigit c = false :=
    fun c hc => isDigit_of_isSpace c (h c hc)
  simp only [scanFloatField]
  rw [scanSign_append t rest h]
  simp only
  rw [(takeWhile_append_stop isDigit _ rest hd).1, (takeWhile_append_stop isDigit _ rest hd).2,
    scanFraction_append _ rest h]
  simp only
  split
  · rfl
  · rw [scanExponent_append _ rest h]

/-- A digit is a field character. -/
theorem fieldChar_of_isDigit (c : Char) (h : isDigit c = true) : fieldChar c = true := by
  simp [fieldChar, h]

/-- The fraction that was read holds only field characters. -/
theorem scanFraction_chars (s : List Char) : ∀ c ∈ (scanFraction s).1, fieldChar c = true := by
  cases s with
  | nil => simp [scanFraction]
  | cons a cs =>
    simp only [scanFraction]
    split
    · rename_i h
      intro c hc
      rcases List.mem_cons.1 hc with e | e
      · subst e
        simp only [beq_iff_eq] at h
        subst h
        decide
      · exact fieldChar_of_isDigit c (List.mem_takeWhile_imp e)
    · simp

/-- The exponent that was read holds only field characters. -/
theorem scanExponent_chars (s : List Char) : ∀ c ∈ (scanExponent s).1, fieldChar c = true := by
  cases s with
  | nil => simp [scanExponent]
  | cons a cs =>
    simp only [scanExponent]
    split
    · rename_i h
      intro c hc
      rcases List.mem_cons.1 hc with e | e
      · subst e
        simp only [Bool.or_eq_true, beq_iff_eq] at h
        rcases h with e | e <;> subst e <;> decide
      · rcases List.mem_append.1 e with e | e
        · exact scanSign_chars cs c e
        · exact fieldChar_of_isDigit c (List.mem_takeWhile_imp e)
    · simp

/-- The field scanner accumulates only field characters. -/
theorem scanFloatField_chars (s : List Char) :
    ∀ c ∈ (scanFloatField s).1, fieldChar c = true := by
  intro c hc
  simp only [scanFloatField] at hc
  have key : c ∈ (scanSign s).1 ∨ c ∈ (scanSign s).2.takeWhile isDigit ∨
      c ∈ (scanFraction ((scanSign s).2.dropWhile isDigit)).1 ∨
      c ∈ (scanExponent (scanFraction ((scanSign s).2.dropWhile isDigit)).2).1 := by
    split at hc
    · simp only [List.mem_append] at hc
      tauto
    · simp only [List.mem_append] at hc
      tauto
  rcases key with e | e | e | e
  · exact scanSign_chars s c e
  · exact fieldChar_of_isDigit c (List.mem_takeWhile_imp e)
  · exact scanFraction_chars _ c e
  · exact scanExponent_chars _ c e

/-- A decimal floating literal is scanned as one field, to its end. -/
theorem scanFloatField_literal (t : List Char) (h : isFloatLiteral t = true) :
    scanFloatField t = (t, []) := by
  simp only [isFloatLiteral, Bool.and_eq_true, Bool.or_eq_true, Bool.not_eq_true'] at h
  obtain ⟨hm, he⟩ := h
  have h1 := scanSign_split t
  have h2 := List.takeWhile_append_dropWhile isDigit (scanSign t).2
  have h3 := scanFraction_split ((scanSign t).2.dropWhile isDigit)
  have hcond : ((scanSign t).2.takeWhile isDigit).isEmpty = true ∧
      (scanFraction ((scanSign t).2.dropWhile isDigit)).1.length ≤ 1 → False := by
    rintro ⟨ha, hb⟩
    rcases hm with hm | hm
    · rw [ha] at hm
      cases hm
    · rw [List.isEmpty_eq_false] at hm
      apply hm
      apply List.eq_nil_of_length_eq_zero
      rw [List.length_drop]
      omega
  have hexp : scanExponent (scanFraction ((scanSign t).2.dropWhile isDigit)).2
      = ((scanFraction ((scanSign t).2.dropWhile isDigit)).2, []) := by
    generalize (scanFraction ((scanSign t).2.dropWhile isDigit)).2 = af at he
    cases af with
    | nil => rfl
    | cons c cs =>
      simp only [Bool.and_eq_true, Bool.or_eq_true, beq_iff_eq, Bool.not_eq_true',
        List.all_eq_true] at he
      obtain ⟨⟨hc, -⟩, hall⟩ := he
      have hc' : (c == 'e' || c == 'E') = true := by
        simpa only [Bool.or_eq_true, beq_iff_eq] using hc
      have htw : (scanSign cs).2.takeWhile isDigit = (scanSign cs).2 :=
        List.takeWhile_eq_self_iff.2 hall
      have hdw : (scanSign cs).2.dropWhile isDigit = [] :=
        List.dropWhile_eq_nil_iff.2 hall
      simp only [scanExponent, hc', if_true, htw, hdw, List.cons_append, scanSign_split]
  simp only [scanFloatField]
  split
  · rename_i hc
    simp only [Bool.and_eq_true, decide_eq_true_eq] at hc
    exact absurd hc hcond
  · rw [hexp]
    simp only [List.append_assoc, Prod.mk.injEq, and_true]
    rw [h3, h2, h1]

/-- A literal is not empty. -/
theorem isFloatLiteral_ne_nil (t : List Char) (h : isFloatLiteral t = true) : t ≠ [] := by
  rintro rfl
  revert h
  decide

/-- A literal holds only field characters. -/
theorem isFloatLiteral_chars (t : List Char) (h : isFloatLiteral t = true) :
    ∀ c ∈ t, fieldChar c = true := by
  have := scanFloatField_chars t
  rwa [scanFloatField_literal t h] at this

/-- Skipping white space in front of a literal stops at the literal. -/
theorem dropWhile_isSpace_literal (lead t rest : List Char)
    (hlead : ∀ c ∈ lead, isSpace c = true) (h : isFloatLiteral t = true) :
    (lead ++ (t ++ rest)).dropWhile isSpace = t ++ rest := by
  induction lead with
  | nil =>
    cases t with
    | nil => exact absurd rfl (isFloatLiteral_ne_nil [] h)
    | cons a l =>
      have hf := isFloatLiteral_chars (a :: l) h a (List.mem_cons_self a l)
      have hs : isSpace a = false := by
        cases hs : isSpace a
        · rfl
        · rw [fieldChar_of_isSpace a hs] at hf
          cases hf
      simp [List.dropWhile_cons, hs]
  | cons a l ih =>
    have ha := hlead a (List.mem_cons_self a l)
    simp only [List.cons_append, List.dropWhile_cons, ha, if_true]
    exact ih fun c hc => hlead c (List.mem_cons_of_mem a hc)

/-- One extraction from a stream that holds white space, a numeric token, and
then ends or continues with white space: the token is converted and the
stream is left right after it. -/
theorem extractDouble_token (strtod : List Char → Option ℚ) (lead t rest : List Char)
    (hlead : ∀ c ∈ lead, isSpace c = true) (h : isFloatLiteral t = true)
    (hrest : atBoundary rest) :
    extractDouble strtod (lead ++ (t ++ rest)) = (strtod t).map fun v => (v, rest) := by
  simp only [extractDouble, dropWhile_isSpace_literal lead t rest hlead h,
    scanFloatField_append t rest hrest, scanFloatField_literal t h, h, if_true,
    List.nil_append]
  have : (t ++ rest).isEmpty = false := by
    cases t with
    | nil => exact absurd rfl (isFloatLiteral_ne_nil [] h)
    | cons a l => rfl
  simp [this]

/-- An extraction from a stream of white space fails. -/
theorem extractDouble_blank (strtod : List Char → Option ℚ) (lead : List Char)
    (hlead : ∀ c ∈ lead, isSpace c = true) : extractDouble strtod lead = none := by
  have : lead.dropWhile isSpace = [] := List.dropWhile_eq_nil_iff.2 hlead
  simp [extractDouble, this]

/-! ## Reading a line of numeric tokens -/

/-- White space inside a line is white space. -/
theorem isSpace_of_isBlank (c : Char) (h : isBlank c = true) : isSpace c = true := by
  simp only [isBlank, Bool.and_eq_true] at h
  exact h.1

/-- What `separated` says about the first token of a line. -/
theorem separated_cons (tok sep : List Char) (rest : List (List Char × List Char))
    (h : separated ((tok, sep) :: rest) = true) :
    (∀ c ∈ sep, isBlank c = true) ∧ separated rest = true ∧ (rest ≠ [] → sep ≠ []) := by
  cases rest with
  | nil =>
    simp only [separated, List.all_eq_true] at h
    exact ⟨h, rfl, fun hne => absurd rfl hne⟩
  | cons next rest =>
    simp only [separated, Bool.and_eq_true, Bool.not_eq_true', List.all_eq_true] at h
    refine ⟨h.1.2, h.2, fun _ hnil => ?_⟩
    rw [hnil] at h
    simp at h

/-- The rest of a line after a token ends or starts with white space. -/
theorem lineText_atBoundary (sep : List Char) (toks : List (List Char × List Char))
    (hsep : ∀ c ∈ sep, isSpace c = true) (hne : toks ≠ [] → sep ≠ []) :
    atBoundary (lineText sep toks) := by
  intro c hc
  cases sep with
  | nil =>
    cases toks with
    | nil => simp [lineText] at hc
    | cons p ps => exact absurd rfl (hne (List.cons_ne_nil p ps))
  | cons a l =>
    have : (lineText (a :: l) toks).head? = some a := by
      cases toks with
      | nil => rfl
      | cons p ps =>
        obtain ⟨tok, sp⟩ := p
        simp [lineText]
    rw [this, Option.some.injEq] at hc
    subst hc
    exact hsep a (List.mem_cons_self a l)

/-- The extraction loop on a line of numeric tokens stores the value of every
token, in order, whenever the fuel exceeds the length of the line. -/
theorem readValues_lineText (strtod : List Char → Option ℚ)
    (toks : List (List Char × List Char)) :
    ∀ (lead : List Char) (fuel : Nat), (∀ c ∈ lead, isSpace c = true) →
      separated toks = true →
      (∀ p ∈ toks, isFloatLiteral p.1 = true ∧ (strtod p.1).isSome = true) →
      (lineText lead toks).length < fuel →
      readValues strtod fuel (lineText lead toks) = tokenValues strtod toks := by
  induction toks with
  | nil =>
    intro lead fuel hlead _ _ hfuel
    cases fuel with
    | zero => omega
    | succ k => simp [readValues, lineText, extractDouble_blank strtod lead hlead, tokenValues]
  | cons p rest ih =>
    intro lead fuel hlead hsep hnum hfuel
    obtain ⟨tok, sep⟩ := p
    obtain ⟨hblank, hrest, hne⟩ := separated_cons tok sep rest hsep
    obtain ⟨hlit, hval⟩ := hnum (tok, sep) (List.mem_cons_self _ _)
    obtain ⟨v, hv⟩ := Option.isSome_iff_exists.1 hval
    have hspace : ∀ c ∈ sep, isSpace c = true := fun c hc => isSpace_of_isBlank c (hblank c hc)
    have hb := lineText_atBoundary sep rest hspace hne
    have htok : 0 < tok.length := List.length_pos.2 (isFloatLiteral_ne_nil tok hlit)
    simp only [lineText, List.append_assoc, List.length_append] at hfuel ⊢
    cases fuel with
    | zero => omega
    | succ k =>
      simp only [readValues, extractDouble_token strtod lead tok _ hlead hlit hb, hv,
        Option.map_some']
      rw [ih sep k hspace hrest (fun q hq => hnum q (List.mem_cons_of_mem _ hq)) (by omega)]
      simp [tokenValues, List.filterMap_cons, hv]

/-- Every token of a line of numeric tokens has a value. -/
theorem tokenValues_length (strtod : List Char → Option ℚ)
    (toks : List (List Char × List Char))
    (h : ∀ p ∈ toks, (strtod p.1).isSome = true) :
    (tokenValues strtod toks).length = toks.length := by
  induction toks with
  | nil => rfl
  | cons p rest ih =>
    obtain ⟨v, hv⟩ := Option.isSome_iff_exists.1 (h p (List.mem_cons_self _ _))
    have := ih fun q hq => h q (List.mem_cons_of_mem _ hq)
    simp only [tokenValues] at this ⊢
    simp [List.filterMap_cons, hv, this]

/-- The characters of a line of numeric tokens are white space other than the
line feed, and field characters. -/
theorem lineText_chars (toks : List (List Char × List Char)) :
    ∀ (lead : List Char), (∀ c ∈ lead, isBlank c = true) → separated toks = true →
      (∀ p ∈ toks, isFloatLiteral p.1 = true) →
      ∀ c ∈ lineText lead toks, isBlank c = true ∨ fieldChar c = true := by
  induction toks with
  | nil =>
    intro lead hlead _ _ c hc
    exact Or.inl (hlead c hc)
  | cons p rest ih =>
    intro lead hlead hsep hnum c hc
    obtain ⟨tok, sep⟩ := p
    obtain ⟨hblank, hrest, -⟩ := separated_cons tok sep rest hsep
    simp only [lineText, List.mem_append] at hc
    rcases hc with (hc | hc) | hc
    · exact Or.inl (hlead c hc)
    · exact Or.inr (isFloatLiteral_chars tok (hnum (tok, sep) (List.mem_cons_self _ _)) c hc)
    · exact ih sep hblank hrest (fun q hq => hnum q (List.mem_cons_of_mem _ hq)) c hc

/-- The parts of `numericLine`. -/
theorem numericLine_parts (strtod : List Char → Option ℚ)
    (l : List Char × List (List Char × List Char)) (h : numericLine strtod l = true) :
    (∀ c ∈ l.1, isBlank c = true) ∧ separated l.2 = true ∧
      ∀ p ∈ l.2, isFloatLiteral p.1 = true ∧ (strtod p.1).isSome = true := by
  simp only [numericLine, Bool.and_eq_true, List.all_eq_true] at h
  exact ⟨h.1.1, h.1.2, h.2⟩

/-- A line of numeric tokens holds neither a NUL nor a line feed. -/
theorem numericLine_chars (strtod : List Char → Option ℚ)
    (l : List Char × List (List Char × List Char)) (h : numericLine strtod l = true) :
    ∀ c ∈ lineText l.1 l.2, c ≠ Char.ofNat 0 ∧ c ≠ '\n' := by
  obtain ⟨h1, h2, h3⟩ := numericLine_parts strtod l h
  intro c hc
  have := lineText_chars l.2 l.1 h1 h2 (fun p hp => (h3 p hp).1) c hc
  constructor
  · rintro rfl
    revert this
    decide
  · rintro rfl
    revert this
    decide

/-- The row read from a line of numeric tokens is the sequence of the values
of its tokens. -/
theorem lineRow_numericLine (strtod : List Char → Option ℚ)
    (l : List Char × List (List Char × List Char)) (h : numericLine strtod l = true) :
    lineRow strtod (lineText l.1 l.2) = tokenValues strtod l.2 := by
  obtain ⟨h1, h2, h3⟩ := numericLine_parts strtod l h
  have hc : cStr (lineText l.1 l.2) = lineText l.1 l.2 := by
    apply List.takeWhile_eq_self_iff.2
    intro c hc
    simpa using (numericLine_chars strtod l h c hc).1
  rw [lineRow, hc]
  exact readValues_lineText strtod l.2 l.1 _ (fun c hc => isSpace_of_isBlank c (h1 c hc)) h2 h3
    (Nat.lt_succ_self _)

/-! ## The fuel of the extraction loop -/

/-- A successful extraction consumes at least one character. -/
theorem extractDouble_consumes (strtod : List Char → Option ℚ) (s rest : List Char) (v : ℚ)
    (h : extractDouble strtod s = some (v, rest)) : rest.length < s.length := by
  simp only [extractDouble] at h
  split at h
  · cases h
  split at h
  · rename_i hlit
    cases hs : strtod (scanFloatField (s.dropWhile isSpace)).1 with
    | none => simp [hs] at h
    | some w =>
      simp only [hs, Option.map_some', Option.some.injEq, Prod.mk.injEq] at h
      have h1 := congrArg List.length (scanFloatField_split (s.dropWhile isSpace))
      have h2 : 0 < (scanFloatField (s.dropWhile isSpace)).1.length :=
        List.length_pos.2 (isFloatLiteral_ne_nil _ hlit)
      have h3 : (s.dropWhile isSpace).length ≤ s.length :=
        (List.dropWhile_sublist isSpace).length_le
      rw [List.length_append, h.2] at h1
      omega
  · cases h

/-- Fuel above the length of the stream is never exhausted: the loop gives
the same row for every such fuel, so the row of `lineRow` is the row of the
unbounded loop of the source. -/
theorem readValues_fuel (strtod : List Char → Option ℚ) :
    ∀ (n m : Nat) (s : List Char), s.length < n → s.length < m →
      readValues strtod n s = readValues strtod m s := by
  intro n
  induction n with
  | zero => intro m s h; omega
  | succ k ih =>
    intro m s hn hm
    cases m with
    | zero => omega
    | succ j =>
      simp only [readValues]
      cases he : extractDouble strtod s with
      | none => rfl
      | some r =>
        obtain ⟨v, rest⟩ := r
        have := extractDouble_consumes strtod s rest v he
        simp only
        rw [ih j rest (by omega) (by omega)]

/-! ## Reading the lines of a file -/

/-- A line that ends with a line feed is delivered without it, and reading
goes on after it. -/
theorem getlines_line (l : List Char) :
    ∀ (cur rest : List Char), (∀ c ∈ l, c ≠ '\n') →
      getlines cur (l ++ '\n' :: rest) = (cur.reverse ++ l) :: getlines [] rest := by
  induction l with
  | nil =>
    intro cur rest _
    simp [getlines]
  | cons a l ih =>
    intro cur rest h
    have ha : (a == '\n') = false := by simpa using h a (List.mem_cons_self a l)
    have step : getlines cur (a :: (l ++ '\n' :: rest))
        = getlines (a :: cur) (l ++ '\n' :: rest) := by
      simp only [getlines, ha, Bool.false_eq_true, if_false]
    rw [List.cons_append, step, ih (a :: cur) rest fun c hc => h c (List.mem_cons_of_mem a hc)]
    simp

/-- Characters after the last line feed form a last line. -/
theorem getlines_last (l : List Char) :
    ∀ (cur : List Char), (∀ c ∈ l, c ≠ '\n') → cur.reverse ++ l ≠ [] →
      getlines cur l = [cur.reverse ++ l] := by
  induction l with
  | nil =>
    intro cur _ hne
    have : cur ≠ [] := by simpa using hne
    simp [getlines, this]
  | cons a l ih =>
    intro cur h _
    have ha : (a == '\n') = false := by simpa using h a (List.mem_cons_self a l)
    simp only [getlines, ha, Bool.false_eq_true, if_false]
    rw [ih (a :: cur) (fun c hc => h c (List.mem_cons_of_mem a hc)) (by simp)]
    simp

/-- The lines read back from the text of a file are its lines. -/
theorem getlines_fileText (terminated : Bool) (lines : List (List Char))
    (hnl : ∀ l ∈ lines, ∀ c ∈ l, c ≠ '\n')
    (hlast : terminated = false → ∀ l, lines.getLast? = some l → l ≠ []) :
    getlines [] (fileText terminated lines) = lines := by
  induction lines with
  | nil => rfl
  | cons l ls ih =>
    have hl := hnl l (List.mem_cons_self l ls)
    cases ls with
    | nil =>
      cases terminated with
      | true =>
        simp only [fileText, if_true]
        rw [getlines_line l [] [] hl]
        simp [getlines]
      | false =>
        have hne : l ≠ [] := hlast rfl l rfl
        simp only [fileText, Bool.false_eq_true, if_false]
        rw [getlines_last l [] hl (by simpa using hne)]
        simp
    | cons next rest =>
      simp only [fileText]
      rw [getlines_line l [] _ hl, ih (fun l1 h1 => hnl l1 (List.mem_cons_of_mem l h1))
        (fun ht l1 h1 => hlast ht l1 (by rw [List.getLast?_cons_cons]; exact h1))]
      simp

/-! ## Reading a line up to a failing extraction -/

/-- White space in front of a stream is skipped by the extraction. -/
theorem extractDouble_skip (strtod : List Char → Option ℚ) (lead s : List Char)
    (hlead : ∀ c ∈ lead, isSpace c = true) :
    extractDouble strtod (lead ++ s) = extractDouble strtod s := by
  have : (lead ++ s).dropWhile isSpace = s.dropWhile isSpace := by
    induction lead with
    | nil => rfl
    | cons a l ih =>
      have ha := hlead a (List.mem_cons_self a l)
      simp only [List.cons_append, List.dropWhile_cons, ha, if_true]
      exact ih fun c hc => hlead c (List.mem_cons_of_mem a hc)
  simp only [extractDouble, this]

/-- After a token that is followed by white space, the stream continues with
white space whatever the line holds further on. -/
theorem lineText_append_atBoundary (sep tail : List Char)
    (toks : List (List Char × List Char)) (hsep : ∀ c ∈ sep, isSpace c = true)
    (hne : sep ≠ []) : atBoundary (lineText sep toks ++ tail) := by
  intro c hc
  cases sep with
  | nil => exact absurd rfl hne
  | cons a l =>
    have : (lineText (a :: l) toks ++ tail).head? = some a := by
      cases toks with
      | nil => rfl
      | cons p ps =>
        obtain ⟨tok, sp⟩ := p
        simp [lineText]
    rw [this, Option.some.injEq] at hc
    subst hc
    exact hsep a (List.mem_cons_self a l)

/-- The extraction loop on a line that starts with numeric tokens, each
followed by white space, and goes on with a tail on which the extraction
fails: the values of the tokens are stored and the tail is dropped. -/
theorem readValues_lineText_tail (strtod : List Char → Option ℚ) (tail : List Char)
    (htail : extractDouble strtod tail = none) (toks : List (List Char × List Char)) :
    ∀ (lead : List Char) (fuel : Nat), (∀ c ∈ lead, isSpace c = true) →
      separated toks = true → (∀ p ∈ toks, p.2 ≠ []) →
      (∀ p ∈ toks, isFloatLiteral p.1 = true ∧ (strtod p.1).isSome = true) →
      (lineText lead toks ++ tail).length < fuel →
      readValues strtod fuel (lineText lead toks ++ tail) = tokenValues strtod toks := by
  induction toks with
  | nil =>
    intro lead fuel hlead _ _ _ hfuel
    cases fuel with
    | zero => omega
    | succ k =>
      simp [readValues, lineText, extractDouble_skip strtod lead tail hlead, htail,
        tokenValues]
  | cons p rest ih =>
    intro lead fuel hlead hsep hfull hnum hfuel
    obtain ⟨tok, sep⟩ := p
    obtain ⟨hblank, hrest, -⟩ := separated_cons tok sep rest hsep
    obtain ⟨hlit, hval⟩ := hnum (tok, sep) (List.mem_cons_self _ _)
    obtain ⟨v, hv⟩ := Option.isSome_iff_exists.1 hval
    have hspace : ∀ c ∈ sep, isSpace c = true := fun c hc => isSpace_of_isBlank c (hblank c hc)
    have hb := lineText_append_atBoundary sep tail rest hspace
      (hfull (tok, sep) (List.mem_cons_self _ _))
    have htok : 0 < tok.length := List.length_pos.2 (isFloatLiteral_ne_nil tok hlit)
    have hsplit : lineText lead ((tok, sep) :: rest) ++ tail
        = lead ++ (tok ++ (lineText sep rest ++ tail)) := by
      simp [lineText, List.append_assoc]
    rw [hsplit] at hfuel ⊢
    simp only [List.length_append] at hfuel
    cases fuel with
    | zero => omega
    | succ k =>
      simp only [readValues, extractDouble_token strtod lead tok _ hlead hlit hb, hv,
        Option.map_some']
      rw [ih sep k hspace hrest (fun q hq => hfull q (List.mem_cons_of_mem _ hq))
        (fun q hq => hnum q (List.mem_cons_of_mem _ hq))
        (by simp only [List.length_append]; omega)]
      simp [tokenValues, List.filterMap_cons, hv]

/-- The row read from a line that starts with numeric tokens, each followed
by white space, and goes on with a tail on which the extraction fails. -/
theorem lineRow_tail (strtod : List Char → Option ℚ) (lead tail : List Char)
    (toks : List (List Char × List Char)) (hnum : numericLine strtod (lead, toks) = true)
    (hfull : ∀ p ∈ toks, p.2 ≠ []) (htail : extractDouble strtod (cStr tail) = none) :
    lineRow strtod (lineText lead toks ++ tail) = tokenValues strtod toks := by
  obtain ⟨h1, h2, h3⟩ := numericLine_parts strtod (lead, toks) hnum
  have hc : cStr (lineText lead toks ++ tail) = lineText lead toks ++ cStr tail := by
    unfold cStr
    apply List.takeWhile_append_of_pos
    intro c hc
    simpa using (numericLine_chars strtod (lead, toks) hnum c hc).1
  rw [lineRow, hc]
  exact readValues_lineText_tail strtod (cStr tail) htail toks lead _
    (fun c hc => isSpace_of_isBlank c (h1 c hc)) h2 hfull h3 (Nat.lt_succ_self _)

/-! ## Sums over lists and sums over indices -/

/-- The sum of a list of terms is the sum over the positions of the list. -/
theorem sum_map_eq_sum_range {α : Type} (l : List α) (d : α) (f : α → ℚ) :
    (l.map f).sum = ∑ i ∈ Finset.range l.length, f (l.getD i d) := by
  induction l with
  | nil => simp
  | cons a l ih =>
    rw [List.map_cons, List.sum_cons, List.length_cons, Finset.sum_range_succ', ih]
    simp [add_comm]

/-- The sum of the terms of the indices below `K`. -/
theorem sum_map_range_eq_sum_range (K : Nat) (f : Nat → ℚ) :
    ((List.range K).map f).sum = ∑ j ∈ Finset.range K, f j := by
  induction K with
  | zero => simp
  | succ k ih =>
    rw [List.range_succ, List.map_append, List.sum_append, ih, Finset.sum_range_succ]
    simp

/-- An undefined inner loop has met a row without element `c` or a value whose
conversion is undefined. -/
theorem extractColumn_none (c : Nat) (table : List (List ℚ))
    (h : extractColumn c table = none) :
    ∃ row ∈ table, row[c]? = none ∨ ∃ v, row[c]? = some v ∧ toUnsignedInt v = none := by
  induction table with
  | nil => simp [extractColumn] at h
  | cons r rs ih =>
    cases hv : r[c]? with
    | none => exact ⟨r, List.mem_cons_self r rs, Or.inl hv⟩
    | some v =>
      cases hn : toUnsignedInt v with
      | none => exact ⟨r, List.mem_cons_self r rs, Or.inr ⟨v, hv, hn⟩⟩
      | some n =>
        cases hr : extractColumn c rs with
        | none =>
          obtain ⟨row, hrow, hbad⟩ := ih hr
          exact ⟨row, List.mem_cons_of_mem r hrow, hbad⟩
        | some rest => simp [extractColumn, hv, hn, hr] at h

/-- An undefined extraction has an undefined column. -/
theorem extractColumns_none (table : List (List ℚ)) (columns : List Nat)
    (h : extractColumns table columns = none) :
    ∃ c ∈ columns, extractColumn c table = none := by
  induction columns with
  | nil => simp [extractColumns] at h
  | cons c cs ih =>
    cases hc : extractColumn c table with
    | none => exact ⟨c, List.mem_cons_self c cs, hc⟩
    | some col =>
      cases hr : extractColumns table cs with
      | none =>
        obtain ⟨c1, hc1, hn⟩ := ih hr
        exact ⟨c1, List.mem_cons_of_mem c hc1, hn⟩
      | some rest => simp [extractColumns, hc, hr] at h

/-! ## The properties of the design document: loading and validating -/

/-- C1 (the code diverges): for a path that cannot be opened `GetInputData`
executes `return 1;`, so its boolean result is `true` and the unreadable input
is reported to the caller as a successful load; the output matrix is left as
it was. -/
theorem GetInputData_unreadable_returns_true :
    ReadInputData exactDecimal (oneFile "ratings.txt" "1 2\n3 4\n") "missing.txt" []
        = (false, []) ∧
      GetInputData exactDecimal (oneFile "ratings.txt" "1 2\n3 4\n") "missing.txt" [0, 1] []
        = some (true, []) := by
  decide

/-- C2 (counterexample): on the readable table `[[1, 2], [3, 4]]` an empty
request and a request of the single index `0` both return `true`, with zero
and one output row. -/
theorem GetInputData_short_request_succeeds :
    GetInputData exactDecimal (oneFile "ratings.txt" "1 2\n3 4\n") "ratings.txt" [] []
        = some (true, []) ∧
      GetInputData exactDecimal (oneFile "ratings.txt" "1 2\n3 4\n") "ratings.txt" [0] []
        = some (true, [[1, 3]]) := by
  decide

/-- C2 (amended): the number of requested indices is not checked. For every
readable table with a first row and every request of fewer than 2 indices,
`GetInputData` returns false exactly when the first row has fewer than 2
values, the table has fewer than 2 rows, or the requested index is not below
the length of the first row; an empty request on a table that passes the two
size checks returns true with an empty output matrix. -/
theorem GetInputData_short_request (strtod : List Char → Option ℚ) (fs : FileSystem)
    (fileName : String) (columns : List Nat) (matrix : List (List Nat))
    (table : List (List ℚ)) (firstRow : List ℚ)
    (hread : ReadInputData strtod fs fileName [] = (true, table))
    (hrow : table[0]? = some firstRow) (hsize : firstRow.length < SIZE_RANGE)
    (hcols : columns.length < 2) :
    ((GetInputData strtod fs fileName columns matrix).map Prod.fst = some false ↔
        firstRow.length < 2 ∨ table.length < 2 ∨ ∃ c ∈ columns, firstRow.length ≤ c) ∧
      (columns = [] → 2 ≤ firstRow.length → 2 ≤ table.length →
        GetInputData strtod fs fileName columns matrix = some (true, [])) ∧
      (∀ c, columns = [c] → 2 ≤ firstRow.length → 2 ≤ table.length → c < firstRow.length →
        GetInputData strtod fs fileName columns matrix
          = (extractColumn c table).map fun col => (true, [col])) := by
  refine ⟨GetInputData_false_iff strtod fs fileName columns matrix table firstRow hread hrow
    hsize, ?_, ?_⟩
  · intro hc h1 h2
    subst hc
    rw [GetInputData_checked strtod fs fileName [] matrix table firstRow hread hrow hsize h1 h2
      (by simp)]
    rfl
  · intro c hc h1 h2 h3
    subst hc
    rw [GetInputData_checked strtod fs fileName [c] matrix table firstRow hread hrow hsize h1
      h2 (by simpa using h3)]
    cases h : extractColumn c table <;> simp [extractColumns, h]

/-- C2 (witness): the amended statement at the table `[[1, 2], [3, 4]]` and
the request `[5]`. -/
theorem GetInputData_short_request_witness :
    ((GetInputData exactDecimal (oneFile "ratings.txt" "1 2\n3 4\n") "ratings.txt" [5] []).map
          Prod.fst = some false ↔
        [(1 : ℚ), 2].length < 2 ∨ [[(1 : ℚ), 2], [3, 4]].length < 2 ∨
          ∃ c ∈ [5], [(1 : ℚ), 2].length ≤ c) ∧
      (([5] : List Nat) = [] → 2 ≤ [(1 : ℚ), 2].length → 2 ≤ [[(1 : ℚ), 2], [3, 4]].length →
        GetInputData exactDecimal (oneFile "ratings.txt" "1 2\n3 4\n") "ratings.txt" [5] []
          = some (true, [])) ∧
      (∀ c, ([5] : List Nat) = [c] → 2 ≤ [(1 : ℚ), 2].length →
        2 ≤ [[(1 : ℚ), 2], [3, 4]].length → c < [(1 : ℚ), 2].length →
        GetInputData exactDecimal (oneFile "ratings.txt" "1 2\n3 4\n") "ratings.txt" [5] []
          = (extractColumn c [[(1 : ℚ), 2], [3, 4]]).map fun col => (true, [col])) :=
  GetInputData_short_request exactDecimal (oneFile "ratings.txt" "1 2\n3 4\n") "ratings.txt"
    [5] [] [[1, 2], [3, 4]] [1, 2] (by decide) (by decide) (by decide) (by decide)

/-- C3 (the code diverges): for the empty file the read succeeds with a table
of zero rows, and the first statement after it, `inputMatrix[ 0 ].size() < 2`,
reads row 0 of that empty table: the run has undefined behaviour instead of
returning false. A file of one line does return false. -/
theorem GetInputData_empty_file_reads_row_zero :
    ReadInputData exactDecimal (oneFile "empty.txt" "") "empty.txt" [] = (true, []) ∧
      GetInputData exactDecimal (oneFile "empty.txt" "") "empty.txt" [0, 1] [] = none ∧
      GetInputData exactDecimal (oneFile "one.txt" "1 2\n") "one.txt" [0, 1] []
        = some (false, []) := by
  decide

/-- C4: for every readable table with at least 2 rows whose first row has at
least 2 values, `GetInputData` returns false if and only if some requested
index is greater than or equal to the length of the first row; under these
preconditions the subtraction `size - 1` taken modulo `2 ^ 64` is the integer
`size - 1`, and the test of the loop is `size ≤ c`. -/
theorem GetInputData_missing_column_iff (strtod : List Char → Option ℚ) (fs : FileSystem)
    (fileName : String) (columns : List Nat) (matrix : List (List Nat))
    (table : List (List ℚ)) (firstRow : List ℚ)
    (hread : ReadInputData strtod fs fileName [] = (true, table))
    (hrow : table[0]? = some firstRow) (hsize : firstRow.length < SIZE_RANGE)
    (hrows : 2 ≤ table.length) (hvals : 2 ≤ firstRow.length) :
    ((GetInputData strtod fs fileName columns matrix).map Prod.fst = some false ↔
        ∃ c ∈ columns, firstRow.length ≤ c) ∧
      (((firstRow.length + SIZE_RANGE - 1) % SIZE_RANGE : Nat) : ℤ)
        = (firstRow.length : ℤ) - 1 ∧
      ∀ c, columnMissing firstRow.length c = true ↔ firstRow.length ≤ c := by
  refine ⟨?_, ?_, fun c => columnMissing_iff firstRow.length c (by omega) hsize⟩
  · rw [GetInputData_false_iff strtod fs fileName columns matrix table firstRow hread hrow
      hsize]
    constructor
    · rintro (h | h | h)
      · omega
      · omega
      · exact h
    · intro h
      exact Or.inr (Or.inr h)
  · have e : firstRow.length + SIZE_RANGE - 1 = (firstRow.length - 1) + SIZE_RANGE := by omega
    rw [e, Nat.add_mod_right, Nat.mod_eq_of_lt (by omega)]
    omega

/-- C4 (witness): the table `[[1, 2], [3, 4]]` with the request `[0, 2]`. -/
theorem GetInputData_missing_column_iff_witness :
    ((GetInputData exactDecimal (oneFile "ratings.txt" "1 2\n3 4\n") "ratings.txt" [0, 2]
          []).map Prod.fst = some false ↔
        ∃ c ∈ [0, 2], [(1 : ℚ), 2].length ≤ c) ∧
      ((([(1 : ℚ), 2].length + SIZE_RANGE - 1) % SIZE_RANGE : Nat) : ℤ)
        = ([(1 : ℚ), 2].length : ℤ) - 1 ∧
      ∀ c, columnMissing [(1 : ℚ), 2].length c = true ↔ [(1 : ℚ), 2].length ≤ c :=
  GetInputData_missing_column_iff exactDecimal (oneFile "ratings.txt" "1 2\n3 4\n")
    "ratings.txt" [0, 2] [] [[1, 2], [3, 4]] [1, 2] (by decide) (by decide) (by decide)
    (by decide) (by decide)

/-- C5: on every readable table and request on which `GetInputData` returns
true, the output has one row per requested index, every output row has one
entry per row of the table, the table has one row per line of the file, the
entry `j` of output row `i` is the conversion to `unsigned int` of the table's
value at row `j` and column `columns[i]`, and equal requested indices give
equal output rows. -/
theorem GetInputData_output (strtod : List Char → Option ℚ) (fs : FileSystem)
    (fileName : String) (columns : List Nat) (matrix out : List (List Nat))
    (table : List (List ℚ))
    (hread : ReadInputData strtod fs fileName [] = (true, table))
    (hok : GetInputData strtod fs fileName columns matrix = some (true, out)) :
    out.length = columns.length ∧
      (∀ (i : Nat) (row : List Nat), out[i]? = some row → row.length = table.length) ∧
      (∀ text, fs fileName = some text → table.length = (getlines [] text).length) ∧
      (∀ (i j c : Nat) (cells : List ℚ), columns[i]? = some c → table[j]? = some cells →
        ∃ v n, cells[c]? = some v ∧ toUnsignedInt v = some n ∧
          ((out[i]?).bind fun row => row[j]?) = some n) ∧
      (∀ (i k : Nat), columns[i]? = columns[k]? → out[i]? = out[k]?) := by
  obtain ⟨hex, -, -⟩ := GetInputData_true strtod fs fileName columns matrix out table hread hok
  obtain ⟨hlen, hcol⟩ := extractColumns_some table columns out hex
  refine ⟨hlen, ?_, ?_, ?_, ?_⟩
  · intro i row hi
    have hilt : i < columns.length := by
      have := (List.getElem?_eq_some.1 hi).1
      omega
    obtain ⟨col, h1, h2⟩ := hcol i columns[i] (List.getElem?_eq_getElem hilt)
    rw [hi, Option.some.injEq] at h1
    subst h1
    exact (extractColumn_some columns[i] table row h2).1
  · intro text hopen
    rw [ReadInputData_open strtod fs fileName [] text hopen] at hread
    simp only [List.nil_append, Prod.mk.injEq, true_and] at hread
    rw [← hread, List.length_map]
  · intro i j c cells hc hl
    obtain ⟨col, h1, h2⟩ := hcol i c hc
    obtain ⟨v, n, hv, hn, hj⟩ := (extractColumn_some c table col h2).2 j cells hl
    exact ⟨v, n, hv, hn, by simp [h1, hj]⟩
  · intro i k hik
    cases hi : columns[i]? with
    | none =>
      have h1 : columns.length ≤ i := List.getElem?_eq_none_iff.1 hi
      have h2 : columns.length ≤ k := List.getElem?_eq_none_iff.1 (hik ▸ hi)
      rw [List.getElem?_eq_none (by omega), List.getElem?_eq_none (by omega)]
    | some c =>
      obtain ⟨col1, h1, h2⟩ := hcol i c hi
      obtain ⟨col2, h3, h4⟩ := hcol k c (hik ▸ hi)
      rw [h1, h3, ← Option.some.injEq, ← h2, ← h4]

/-- C5 (witness): three rows, the request `[1, 0, 1]`. -/
theorem GetInputData_output_witness :
    [[2, 4, 6], [1, 3, 5], [2, 4, 6]].length = [1, 0, 1].length ∧
      (∀ (i : Nat) (row : List Nat), [[2, 4, 6], [1, 3, 5], [2, 4, 6]][i]? = some row →
        row.length = [[(1 : ℚ), 2], [3, 4], [5, 6]].length) ∧
      (∀ text, oneFile "ratings.txt" "1 2\n3 4\n5 6\n" "ratings.txt" = some text →
        [[(1 : ℚ), 2], [3, 4], [5, 6]].length = (getlines [] text).length) ∧
      (∀ (i j c : Nat) (cells : List ℚ), [1, 0, 1][i]? = some c →
        [[(1 : ℚ), 2], [3, 4], [5, 6]][j]? = some cells →
        ∃ v n, cells[c]? = some v ∧ toUnsignedInt v = some n ∧
          (([[2, 4, 6], [1, 3, 5], [2, 4, 6]][i]?).bind fun row => row[j]?) = some n) ∧
      (∀ (i k : Nat), [1, 0, 1][i]? = [1, 0, 1][k]? →
        [[2, 4, 6], [1, 3, 5], [2, 4, 6]][i]? = [[2, 4, 6], [1, 3, 5], [2, 4, 6]][k]?) :=
  GetInputData_output exactDecimal (oneFile "ratings.txt" "1 2\n3 4\n5 6\n") "ratings.txt"
    [1, 0, 1] [] [[2, 4, 6], [1, 3, 5], [2, 4, 6]] [[1, 2], [3, 4], [5, 6]] (by decide)
    (by decide)

/-- C6 (counterexample): the truncation of `-1.5` is `-1`, which is no value
of the `unsigned int` the output matrix holds: the conversion of the cell is
undefined and no call stores the label `-1`. -/
theorem GetInputData_negative_label :
    exactDecimal "-1.5".toList = some (-3 / 2) ∧ truncate (-3 / 2) = -1 ∧
      toUnsignedInt (-3 / 2) = none ∧
      GetInputData exactDecimal (oneFile "ratings.txt" "-1.5 2\n3 4\n") "ratings.txt" [0, 1] []
        = none := by
  decide!

/-- C6 (amended): every label `GetInputData` stores is the truncation toward
zero of the selected cell, never its rounding: the label is no further from
zero than the cell and differs from it by less than one. A label is stored
only for cells above `-1` and below `2 ^ 32`, which are exactly the cells whose
conversion to `unsigned int` is defined, so a stored label is never negative
(`-0.5` gives `0`). -/
theorem GetInputData_label_truncates (strtod : List Char → Option ℚ) (fs : FileSystem)
    (fileName : String) (columns : List Nat) (matrix out : List (List Nat))
    (table : List (List ℚ)) (i j c n : Nat) (cells : List ℚ) (v : ℚ)
    (hread : ReadInputData strtod fs fileName [] = (true, table))
    (hok : GetInputData strtod fs fileName columns matrix = some (true, out))
    (hc : columns[i]? = some c) (hl : table[j]? = some cells) (hv : cells[c]? = some v)
    (hn : ((out[i]?).bind fun row => row[j]?) = some n) :
    (n : ℤ) = truncate v ∧ |(n : ℚ)| ≤ |v| ∧ |v - (n : ℚ)| < 1 ∧
      -1 < v ∧ v < (UINT_RANGE : ℚ) ∧
      ∀ w : ℚ, (toUnsignedInt w).isSome = true ↔ -1 < w ∧ w < (UINT_RANGE : ℚ) := by
  obtain ⟨hex, -, -⟩ := GetInputData_true strtod fs fileName columns matrix out table hread hok
  obtain ⟨-, hcol⟩ := extractColumns_some table columns out hex
  obtain ⟨col, h1, h2⟩ := hcol i c hc
  obtain ⟨v1, n1, hv1, hn1, hj⟩ := (extractColumn_some c table col h2).2 j cells hl
  rw [hv, Option.some.injEq] at hv1
  subst hv1
  simp only [h1, Option.some_bind, hj, Option.some.injEq] at hn
  subst hn
  obtain ⟨ht, -⟩ := toUnsignedInt_some v n1 hn1
  have hs := truncate_spec v
  have hd := (toUnsignedInt_defined_iff v).1 (by simp [hn1])
  have hq : (n1 : ℚ) = ((truncate v : ℤ) : ℚ) := by
    rw [← ht]
    simp
  rw [hq]
  exact ⟨ht, hs.1, hs.2, hd.1, hd.2, toUnsignedInt_defined_iff⟩

/-- C6 (witness): the cell `2.9` is stored as `2`. -/
theorem GetInputData_label_truncates_witness :
    ((2 : Nat) : ℤ) = truncate (29 / 10) ∧ |((2 : Nat) : ℚ)| ≤ |(29 / 10 : ℚ)| ∧
      |(29 / 10 : ℚ) - ((2 : Nat) : ℚ)| < 1 ∧ -1 < (29 / 10 : ℚ) ∧
      (29 / 10 : ℚ) < (UINT_RANGE : ℚ) ∧
      ∀ w : ℚ, (toUnsignedInt w).isSome = true ↔ -1 < w ∧ w < (UINT_RANGE : ℚ) :=
  GetInputData_label_truncates exactDecimal (oneFile "ratings.txt" "2.9 -0.5\n3 4\n")
    "ratings.txt" [0, 1] [] [[2, 3], [0, 4]] [[29 / 10, -1 / 2], [3, 4]] 0 0 0 2
    [29 / 10, -1 / 2] (29 / 10) (by decide!) (by decide) (by decide) (by decide!) (by decide!)
    (by decide)

/-- C7 (counterexample): the second row of the table `[[1, 2], [3, 4, 5]]` is
longer than the first, and `GetInputData` extracts the columns and returns
true. -/
theorem GetInputData_accepts_ragged_table :
    ReadInputData exactDecimal (oneFile "ratings.txt" "1 2\n3 4 5\n") "ratings.txt" []
        = (true, [[1, 2], [3, 4, 5]]) ∧
      GetInputData exactDecimal (oneFile "ratings.txt" "1 2\n3 4 5\n") "ratings.txt" [0, 1] []
        = some (true, [[1, 3], [2, 4]]) := by
  decide

/-- C7 (amended): `GetInputData` does not compare the lengths of the rows.
For every readable table with a first row, whether or not some row has a
length different from the first row's, it returns false exactly when the first
row has fewer than 2 values, the table has fewer than 2 rows, or a requested
index is not below the length of the first row. When these checks pass it goes on to the extraction:
it returns true if every row holds a convertible value at every requested
index, and reads out of bounds if some row is too short for a requested
index. -/
theorem GetInputData_ragged_table (strtod : List Char → Option ℚ) (fs : FileSystem)
    (fileName : String) (columns : List Nat) (matrix : List (List Nat))
    (table : List (List ℚ)) (firstRow : List ℚ)
    (hread : ReadInputData strtod fs fileName [] = (true, table))
    (hrow : table[0]? = some firstRow) (hsize : firstRow.length < SIZE_RANGE) :
    ((GetInputData strtod fs fileName columns matrix).map Prod.fst = some false ↔
        firstRow.length < 2 ∨ table.length < 2 ∨ ∃ c ∈ columns, firstRow.length ≤ c) ∧
      (2 ≤ firstRow.length → 2 ≤ table.length → (∀ c ∈ columns, c < firstRow.length) →
        ((∀ row ∈ table, ∀ c ∈ columns,
            ∃ v, row[c]? = some v ∧ (toUnsignedInt v).isSome = true) →
          ∃ out, GetInputData strtod fs fileName columns matrix = some (true, out) ∧
            out.length = columns.length) ∧
        ((∃ row ∈ table, ∃ c ∈ columns, row.length ≤ c) →
          GetInputData strtod fs fileName columns matrix = none)) := by
  refine ⟨GetInputData_false_iff strtod fs fileName columns matrix table firstRow hread hrow
    hsize, ?_⟩
  intro h1 h2 h3
  rw [GetInputData_checked strtod fs fileName columns matrix table firstRow hread hrow hsize h1
    h2 h3]
  constructor
  · intro hall
    obtain ⟨out, hout⟩ := extractColumns_defined table columns fun c hc =>
      extractColumn_defined c table fun row hr => hall row hr c hc
    exact ⟨out, by simp [hout], (extractColumns_some table columns out hout).1⟩
  · rintro ⟨row, hr, c, hc, hle⟩
    rw [extractColumns_undefined table columns
      ⟨c, hc, extractColumn_short_row c table ⟨row, hr, hle⟩⟩]
    rfl

/-- C7 (witness): the ragged table `[[1, 2], [3, 4, 5]]` with the request
`[0, 1]`. -/
theorem GetInputData_ragged_table_witness :
    ((GetInputData exactDecimal (oneFile "ratings.txt" "1 2\n3 4 5\n") "ratings.txt" [0, 1]
          []).map Prod.fst = some false ↔
        [(1 : ℚ), 2].length < 2 ∨ [[(1 : ℚ), 2], [3, 4, 5]].length < 2 ∨
          ∃ c ∈ [0, 1], [(1 : ℚ), 2].length ≤ c) ∧
      (2 ≤ [(1 : ℚ), 2].length → 2 ≤ [[(1 : ℚ), 2], [3, 4, 5]].length →
        (∀ c ∈ [0, 1], c < [(1 : ℚ), 2].length) →
        ((∀ row ∈ [[(1 : ℚ), 2], [3, 4, 5]], ∀ c ∈ [0, 1],
            ∃ v, row[c]? = some v ∧ (toUnsignedInt v).isSome = true) →
          ∃ out, GetInputData exactDecimal (oneFile "ratings.txt" "1 2\n3 4 5\n")
              "ratings.txt" [0, 1] [] = some (true, out) ∧
            out.length = [0, 1].length) ∧
        ((∃ row ∈ [[(1 : ℚ), 2], [3, 4, 5]], ∃ c ∈ [0, 1], row.length ≤ c) →
          GetInputData exactDecimal (oneFile "ratings.txt" "1 2\n3 4 5\n") "ratings.txt"
            [0, 1] [] = none)) :=
  GetInputData_ragged_table exactDecimal (oneFile "ratings.txt" "1 2\n3 4 5\n") "ratings.txt"
    [0, 1] [] [[1, 2], [3, 4, 5]] [1, 2] (by decide) (by decide) (by decide)

/-- C8: `ReadInputData` returns false if and only if the file cannot be
opened; for every file that opens it returns true, whatever the text of the
file and whatever the matrix passed in. -/
theorem ReadInputData_false_iff_closed (strtod : List Char → Option ℚ) (fs : FileSystem)
    (filename : String) (matrix : List (List ℚ)) :
    ((ReadInputData strtod fs filename matrix).1 = false ↔ fs filename = none) ∧
      ∀ text, fs filename = some text → (ReadInputData strtod fs filename matrix).1 = true := by
  constructor
  · rw [ReadInputData_fst]
    cases fs filename <;> simp
  · intro text h
    rw [ReadInputData_fst, h]
    rfl

/-- C9: for every readable file written as lines of numeric tokens (each line
with leading white space, tokens separated by runs of white space of any
length, trailing white space, a line feed after every line, the last one
optional), `ReadInputData` returns true and appends to the matrix exactly one
row per line, in file order; each row is the sequence of the values of the
tokens of its line, in order, one value per token, so a line without tokens is
appended as an empty row. -/
theorem ReadInputData_numeric_file (strtod : List Char → Option ℚ) (fs : FileSystem)
    (filename : String) (matrix : List (List ℚ))
    (rows : List (List Char × List (List Char × List Char))) (terminated : Bool)
    (hopen : fs filename = some (fileText terminated (rows.map fun r => lineText r.1 r.2)))
    (hnum : ∀ r ∈ rows, numericLine strtod r = true)
    (hlast : terminated = false → ∀ r, rows.getLast? = some r → lineText r.1 r.2 ≠ []) :
    ReadInputData strtod fs filename matrix
        = (true, matrix ++ rows.map fun r => tokenValues strtod r.2) ∧
      (∀ r ∈ rows, (tokenValues strtod r.2).length = r.2.length) ∧
      (∀ r ∈ rows, r.2 = [] → tokenValues strtod r.2 = []) := by
  refine ⟨?_, ?_, ?_⟩
  · rw [ReadInputData_open strtod fs filename matrix _ hopen, getlines_fileText]
    · rw [List.map_map]
      congr 2
      apply List.map_congr_left
      intro r hr
      exact lineRow_numericLine strtod r (hnum r hr)
    · intro l hl c hc
      obtain ⟨r, hr, rfl⟩ := List.mem_map.1 hl
      exact (numericLine_chars strtod r (hnum r hr) c hc).2
    · intro ht l hl
      rw [List.getLast?_map] at hl
      obtain ⟨r, hr, rfl⟩ := Option.map_eq_some'.1 hl
      exact hlast ht r hr
  · intro r hr
    exact tokenValues_length strtod r.2 fun p hp =>
      ((numericLine_parts strtod r (hnum r hr)).2.2 p hp).2
  · intro r _ hnil
    rw [hnil]
    rfl

/-- C9 (witness): the file of three lines `1 2.5`, ` -3e1<tab> <tab>4 ` and an
empty line is read as the rows `[1, 5/2]`, `[-30, 4]` and `[]`. -/
theorem ReadInputData_numeric_file_witness :
    ReadInputData exactDecimal (oneFile "ratings.txt" "1 2.5\n -3e1\t \t4 \n\n") "ratings.txt"
        [[7]] = (true, [[7], [1, 5 / 2], [-30, 4], []]) :=
  (ReadInputData_numeric_file exactDecimal (oneFile "ratings.txt" "1 2.5\n -3e1\t \t4 \n\n")
    "ratings.txt" [[7]]
    [([], [("1".toList, " ".toList), ("2.5".toList, [])]),
      (" ".toList, [("-3e1".toList, "\t \t".toList), ("4".toList, " ".toList)]),
      ([], [])]
    true (by decide) (by decide) (by decide)).1.trans (by decide!)

/-- C10: for every file text and request, the boolean result of `GetInputData`
does not depend on what the output matrix held before the call, two successful
calls produce the same output matrix, and a second call made on the outcome of
a first reproduces that outcome: earlier contents are discarded, never
appended to. -/
theorem GetInputData_idempotent (strtod : List Char → Option ℚ) (fs : FileSystem)
    (fileName : String) (text : List Char) (columns : List Nat)
    (matrix1 matrix2 : List (List Nat)) (hopen : fs fileName = some text) :
    (GetInputData strtod fs fileName columns matrix1).map Prod.fst
        = (GetInputData strtod fs fileName columns matrix2).map Prod.fst ∧
      (∀ out1 out2, GetInputData strtod fs fileName columns matrix1 = some (true, out1) →
        GetInputData strtod fs fileName columns matrix2 = some (true, out2) → out1 = out2) ∧
      (∀ ret out, GetInputData strtod fs fileName columns matrix1 = some (ret, out) →
        GetInputData strtod fs fileName columns out = some (ret, out)) := by
  obtain ⟨r, key⟩ := GetInputData_shape strtod fs fileName columns _
    (ReadInputData_open strtod fs fileName [] text hopen)
  refine ⟨?_, ?_, ?_⟩
  · rw [key matrix1, key matrix2]
    rcases r with _ | _ | out <;> rfl
  · intro out1 out2 h1 h2
    rw [key matrix1] at h1
    rw [key matrix2] at h2
    rcases r with _ | _ | out
    · simp at h1
    · simp at h1
    · simp only [Option.some.injEq, Prod.mk.injEq, true_and] at h1 h2
      rw [← h1, ← h2]
  · intro ret out h
    rw [key matrix1] at h
    rw [key out]
    rcases r with _ | _ | o
    · simp at h
    · simp only [Option.some.injEq, Prod.mk.injEq] at h
      rw [← h.1]
    · simp only [Option.some.injEq, Prod.mk.injEq] at h
      rw [← h.1, ← h.2]

/-- C10 (witness): the file `1 2`, `3 4` read twice, into an empty matrix and
into one that already holds a row. -/
theorem GetInputData_idempotent_witness :
    (GetInputData exactDecimal (oneFile "ratings.txt" "1 2\n3 4\n") "ratings.txt" [0, 1]
          []).map Prod.fst
        = (GetInputData exactDecimal (oneFile "ratings.txt" "1 2\n3 4\n") "ratings.txt" [0, 1]
          [[7, 7, 7]]).map Prod.fst ∧
      (∀ out1 out2,
        GetInputData exactDecimal (oneFile "ratings.txt" "1 2\n3 4\n") "ratings.txt" [0, 1] []
          = some (true, out1) →
        GetInputData exactDecimal (oneFile "ratings.txt" "1 2\n3 4\n") "ratings.txt" [0, 1]
          [[7, 7, 7]] = some (true, out2) → out1 = out2) ∧
      (∀ ret out,
        GetInputData exactDecimal (oneFile "ratings.txt" "1 2\n3 4\n") "ratings.txt" [0, 1] []
          = some (ret, out) →
        GetInputData exactDecimal (oneFile "ratings.txt" "1 2\n3 4\n") "ratings.txt" [0, 1] out
          = some (ret, out)) :=
  GetInputData_idempotent exactDecimal (oneFile "ratings.txt" "1 2\n3 4\n") "ratings.txt"
    "1 2\n3 4\n".toList [0, 1] [] [[7, 7, 7]] (by decide)

/-- The mean observed agreement as a sum over subjects and categories. -/
theorem fleissObserved_eq_sum (counts : List (List Nat)) (R K : Nat)
    (hK : ∀ row ∈ counts, row.length = K) :
    fleissObserved counts R =
      (∑ i ∈ Finset.range counts.length,
        ((∑ j ∈ Finset.range K, countAt counts i j ^ 2) - (R : ℚ))
          / ((R : ℚ) * ((R : ℚ) - 1))) / (counts.length : ℚ) := by
  unfold fleissObserved
  rw [sum_map_eq_sum_range counts []]
  congr 1
  apply Finset.sum_congr rfl
  intro i hi
  have hlt : i < counts.length := Finset.mem_range.1 hi
  have hmem : counts.getD i [] ∈ counts := by
    rw [List.getD_eq_getElem counts [] hlt]
    exact List.getElem_mem hlt
  unfold fleissSubjectAgreement
  rw [sum_map_eq_sum_range (counts.getD i []) 0, hK _ hmem]
  simp only [countAt]

/-- The expected agreement as a sum over categories and subjects. -/
theorem fleissExpected_eq_sum (counts : List (List Nat)) (R K : Nat) :
    fleissExpected counts R K =
      ∑ j ∈ Finset.range K,
        ((∑ i ∈ Finset.range counts.length, countAt counts i j)
          / ((counts.length : ℚ) * (R : ℚ))) ^ 2 := by
  unfold fleissExpected
  rw [sum_map_range_eq_sum_range]
  apply Finset.sum_congr rfl
  intro j _
  unfold fleissMarginal
  rw [sum_map_eq_sum_range counts []]
  simp only [countAt]

/-- C11: for every matrix of counts `n[i][j]` with `N` subjects, `K`
categories and `R` raters whose expected agreement is not 1, the estimator
returns `(P̄ − P̄_e) / (1 − P̄_e)` with `P_i = (Σ_j n[i][j]² − R) / (R (R − 1))`,
`P̄` the mean of the `P_i`, `p_j = (Σ_i n[i][j]) / (N R)` and `P̄_e = Σ_j p_j²`.
For the ratings `[[0,0,0],[1,1,1],[0,1,0]]` (3 subjects, 3 raters, labels 0
and 1) the counts are `[[3,0],[0,3],[2,1]]`, `P̄ = 7/9`, `P̄_e = 41/81` and
`κ = 22/40 = 0.55`. -/
theorem fleissKappa_formula (counts : List (List Nat)) (R K : Nat)
    (hK : ∀ row ∈ counts, row.length = K) (hne : fleissExpected counts R K ≠ 1) :
    fleissKappa counts R K =
        Except.ok
          (((∑ i ∈ Finset.range counts.length,
                ((∑ j ∈ Finset.range K, countAt counts i j ^ 2) - (R : ℚ))
                  / ((R : ℚ) * ((R : ℚ) - 1))) / (counts.length : ℚ)
              - ∑ j ∈ Finset.range K,
                  ((∑ i ∈ Finset.range counts.length, countAt counts i j)
                    / ((counts.length : ℚ) * (R : ℚ))) ^ 2)
            / (1 - ∑ j ∈ Finset.range K,
                ((∑ i ∈ Finset.range counts.length, countAt counts i j)
                  / ((counts.length : ℚ) * (R : ℚ))) ^ 2)) ∧
      fleissCounts 0 2 [[0, 0, 0], [1, 1, 1], [0, 1, 0]] = [[3, 0], [0, 3], [2, 1]] ∧
      fleissObserved [[3, 0], [0, 3], [2, 1]] 3 = 7 / 9 ∧
      fleissExpected [[3, 0], [0, 3], [2, 1]] 3 2 = 41 / 81 ∧
      fleissKappa (fleissCounts 0 2 [[0, 0, 0], [1, 1, 1], [0, 1, 0]]) 3 2
        = Except.ok (22 / 40) ∧
      (22 / 40 : ℚ) = 0.55 := by
  refine ⟨?_, by decide, by decide!, by decide!, ?_, by norm_num⟩
  · rw [← fleissObserved_eq_sum counts R K hK, ← fleissExpected_eq_sum counts R K]
    simp only [fleissKappa, hne, if_false]
  · have hc : fleissCounts 0 2 [[0, 0, 0], [1, 1, 1], [0, 1, 0]] = [[3, 0], [0, 3], [2, 1]] := by
      decide
    have ho : fleissObserved [[3, 0], [0, 3], [2, 1]] 3 = 7 / 9 := by decide!
    have he : fleissExpected [[3, 0], [0, 3], [2, 1]] 3 2 = 41 / 81 := by decide!
    rw [hc]
    simp only [fleissKappa, ho, he]
    norm_num

/-- C11 (witness): the counts of the scenario, `[[3,0],[0,3],[2,1]]` with 3
raters and 2 categories. -/
theorem fleissKappa_formula_witness :
    fleissKappa [[3, 0], [0, 3], [2, 1]] 3 2 = Except.ok (11 / 20) :=
  (fleissKappa_formula [[3, 0], [0, 3], [2, 1]] 3 2 (by decide) (by decide!)).1.trans
    (by simp [Finset.sum_range_succ, countAt]; norm_num)

/-- C12: under the rectangularity assumption (every row of the loaded table
has the length of the first row), once validation has passed (the call does
not return false) every index of the extraction is in bounds: each requested
column index is below the length of every row, every row index below the
number of rows names a row, and that row holds a value at every requested
index. The extraction never reads outside the table: if the call has no
defined result, the cause is the conversion of a value that was read, not a
read. -/
theorem GetInputData_in_bounds (strtod : List Char → Option ℚ) (fs : FileSystem)
    (fileName : String) (columns : List Nat) (matrix : List (List Nat))
    (table : List (List ℚ)) (firstRow : List ℚ)
    (hread : ReadInputData strtod fs fileName [] = (true, table))
    (hrow : table[0]? = some firstRow) (hsize : firstRow.length < SIZE_RANGE)
    (hrect : ∀ row ∈ table, row.length = firstRow.length)
    (hpass : (GetInputData strtod fs fileName columns matrix).map Prod.fst ≠ some false) :
    (∀ c ∈ columns, ∀ row ∈ table, c < row.length) ∧
      (∀ j, j < table.length →
        ∃ row, table[j]? = some row ∧ ∀ c ∈ columns, ∃ v, row[c]? = some v) ∧
      (GetInputData strtod fs fileName columns matrix = none →
        ∃ row ∈ table, ∃ c ∈ columns, ∃ v, row[c]? = some v ∧ toUnsignedInt v = none) := by
  have hchk : ¬ (firstRow.length < 2 ∨ table.length < 2 ∨ ∃ c ∈ columns, firstRow.length ≤ c) :=
    fun h => hpass ((GetInputData_false_iff strtod fs fileName columns matrix table firstRow
      hread hrow hsize).2 h)
  have h1 : 2 ≤ firstRow.length := by
    by_contra h
    exact hchk (Or.inl (by omega))
  have h2 : 2 ≤ table.length := by
    by_contra h
    exact hchk (Or.inr (Or.inl (by omega)))
  have h3 : ∀ c ∈ columns, c < firstRow.length := by
    intro c hc
    by_contra h
    exact hchk (Or.inr (Or.inr ⟨c, hc, by omega⟩))
  have hin : ∀ c ∈ columns, ∀ row ∈ table, c < row.length := by
    intro c hc row hr
    rw [hrect row hr]
    exact h3 c hc
  refine ⟨hin, ?_, ?_⟩
  · intro j hj
    refine ⟨table[j], List.getElem?_eq_getElem hj, fun c hc => ?_⟩
    have hlt := hin c hc table[j] (List.getElem_mem hj)
    exact ⟨table[j][c], List.getElem?_eq_getElem hlt⟩
  · intro hnone
    rw [GetInputData_checked strtod fs fileName columns matrix table firstRow hread hrow hsize
      h1 h2 h3] at hnone
    have hex : extractColumns table columns = none := by
      cases he : extractColumns table columns with
      | none => rfl
      | some out => simp [he] at hnone
    obtain ⟨c, hc, hcn⟩ := extractColumns_none table columns hex
    obtain ⟨row, hr, hbad⟩ := extractColumn_none c table hcn
    rcases hbad with hbad | ⟨v, hv, hn⟩
    · have hlt := hin c hc row hr
      rw [List.getElem?_eq_getElem hlt] at hbad
      cases hbad
    · exact ⟨row, hr, c, hc, v, hv, hn⟩

/-- C12 (witness): the rectangular table `[[1, 2], [3, 4]]` with the request
`[1, 0]`. -/
theorem GetInputData_in_bounds_witness :
    (∀ c ∈ [1, 0], ∀ row ∈ [[(1 : ℚ), 2], [3, 4]], c < row.length) ∧
      (∀ j, j < [[(1 : ℚ), 2], [3, 4]].length →
        ∃ row, [[(1 : ℚ), 2], [3, 4]][j]? = some row ∧
          ∀ c ∈ [1, 0], ∃ v, row[c]? = some v) ∧
      (GetInputData exactDecimal (oneFile "ratings.txt" "1 2\n3 4\n") "ratings.txt" [1, 0] []
          = none →
        ∃ row ∈ [[(1 : ℚ), 2], [3, 4]], ∃ c ∈ [1, 0], ∃ v,
          row[c]? = some v ∧ toUnsignedInt v = none) :=
  GetInputData_in_bounds exactDecimal (oneFile "ratings.txt" "1 2\n3 4\n") "ratings.txt"
    [1, 0] [] [[1, 2], [3, 4]] [1, 2] (by decide) (by decide) (by decide) (by decide)
    (by decide)

/-- C13 (counterexample): the tokens `2.5,` and `12-3` do not parse as
numbers, yet the row of the line `1 2.5, 3` holds `2.5`, read from the front
of the first of them, and the row of the line `12-3 4` holds `12`, `-3` and
`4`: nothing of that line is discarded. -/
theorem ReadInputData_numeric_prefix_kept :
    isFloatLiteral "2.5,".toList = false ∧ isFloatLiteral "12-3".toList = false ∧
      ReadInputData exactDecimal (oneFile "ratings.txt" "1 2.5, 3\n12-3 4\n5 6\n")
          "ratings.txt" []
        = (true, [[1, 5 / 2], [12, -3, 4], [5, 6]]) := by
  decide!

/-- C13 (amended): for every readable file `ReadInputData` returns true and
appends one row per line, whatever the lines hold, so lines after a bad one
are still read. The row of a line holds exactly the values extracted before
the first extraction that fails: for a line that starts with numeric tokens,
each followed by white space, and goes on with a tail at which the extraction
fails (a token that does not begin with a numeric field), the row is the
sequence of the values of those tokens, and the tail is discarded. -/
theorem ReadInputData_failed_extraction (strtod : List Char → Option ℚ) (fs : FileSystem)
    (filename : String) (matrix : List (List ℚ)) (text : List Char)
    (hopen : fs filename = some text) :
    ReadInputData strtod fs filename matrix
        = (true, matrix ++ (getlines [] text).map (lineRow strtod)) ∧
      ∀ (i : Nat) (lead tail : List Char) (toks : List (List Char × List Char)),
        (getlines [] text)[i]? = some (lineText lead toks ++ tail) →
        numericLine strtod (lead, toks) = true → (∀ p ∈ toks, p.2 ≠ []) →
        extractDouble strtod (cStr tail) = none →
        (ReadInputData strtod fs filename matrix).2[matrix.length + i]?
          = some (tokenValues strtod toks) := by
  have hread := ReadInputData_open strtod fs filename matrix text hopen
  refine ⟨hread, ?_⟩
  intro i lead tail toks hline hnum hfull htail
  rw [hread]
  simp only
  rw [List.getElem?_append_right (Nat.le_add_right _ _), Nat.add_sub_cancel_left,
    List.getElem?_map, hline, Option.map_some',
    lineRow_tail strtod lead tail toks hnum hfull htail]

/-- C13 (witness): in the file of the lines `1 2 x 3` and `4 5` the first row
is `[1, 2]` and the second line is still read. -/
theorem ReadInputData_failed_extraction_witness :
    ReadInputData exactDecimal (oneFile "ratings.txt" "1 2 x 3\n4 5\n") "ratings.txt" []
        = (true, [[1, 2], [4, 5]]) ∧
      (ReadInputData exactDecimal (oneFile "ratings.txt" "1 2 x 3\n4 5\n") "ratings.txt"
          []).2[0]?
        = some (tokenValues exactDecimal [("1".toList, " ".toList), ("2".toList, " ".toList)]) :=
  ⟨(ReadInputData_failed_extraction exactDecimal (oneFile "ratings.txt" "1 2 x 3\n4 5\n")
      "ratings.txt" [] "1 2 x 3\n4 5\n".toList (by decide)).1.trans (by decide),
    (ReadInputData_failed_extraction exactDecimal (oneFile "ratings.txt" "1 2 x 3\n4 5\n")
      "ratings.txt" [] "1 2 x 3\n4 5\n".toList (by decide)).2 0 [] "x 3".toList
      [("1".toList, " ".toList), ("2".toList, " ".toList)] (by decide) (by decide)
      (by decide) (by decide)⟩

/-- C14: whenever `GetInputData` returns false, the caller's output matrix is
exactly what it was before the call; the file was read, and the cause is one
of the three checks (fewer than 2 values in the first row, fewer than 2 rows,
a requested column that the first row does not have). -/
theorem GetInputData_failure_keeps_matrix (strtod : List Char → Option ℚ) (fs : FileSystem)
    (fileName : String) (columns : List Nat) (matrix out : List (List Nat))
    (h : GetInputData strtod fs fileName columns matrix = some (false, out)) :
    out = matrix ∧
      ∃ table firstRow, ReadInputData strtod fs fileName [] = (true, table) ∧
        table[0]? = some firstRow ∧
        (firstRow.length < 2 ∨ table.length < 2 ∨
          columns.any (columnMissing firstRow.length) = true) := by
  cases hopen : fs fileName with
  | none =>
    rw [GetInputData_closed strtod fs fileName columns matrix hopen] at h
    simp at h
  | some text =>
    have hread := ReadInputData_open strtod fs fileName [] text hopen
    generalize ([] : List (List ℚ)) ++ (getlines [] text).map (lineRow strtod) = table at hread
    rw [GetInputData_of_read strtod fs fileName columns matrix table hread] at h
    cases hrow : table[0]? with
    | none => simp [hrow] at h
    | some firstRow =>
      simp only [hrow] at h
      by_cases h1 : firstRow.length < 2
      · simp only [h1, if_true, Option.some.injEq, Prod.mk.injEq, true_and] at h
        exact ⟨h.symm, table, firstRow, hread, hrow, Or.inl h1⟩
      by_cases h2 : table.length < 2
      · simp only [h1, h2, if_true, if_false, Option.some.injEq, Prod.mk.injEq, true_and] at h
        exact ⟨h.symm, table, firstRow, hread, hrow, Or.inr (Or.inl h2)⟩
      by_cases h3 : columns.any (columnMissing firstRow.length) = true
      · simp only [h1, h2, h3, if_true, if_false, Option.some.injEq, Prod.mk.injEq,
          true_and] at h
        exact ⟨h.symm, table, firstRow, hread, hrow, Or.inr (Or.inr h3)⟩
      exfalso
      cases he : extractColumns table columns <;> simp [h1, h2, h3, he] at h

/-- C14 (witness): a file with one value per line, read into a matrix that
already holds a row. -/
theorem GetInputData_failure_keeps_matrix_witness :
    [[7, 7, 7]] = [[7, 7, 7]] ∧
      ∃ table firstRow,
        ReadInputData exactDecimal (oneFile "ratings.txt" "1\n3\n") "ratings.txt" []
          = (true, table) ∧
        table[0]? = some firstRow ∧
        (firstRow.length < 2 ∨ table.length < 2 ∨
          [0, 1].any (columnMissing firstRow.length) = true) :=
  GetInputData_failure_keeps_matrix exactDecimal (oneFile "ratings.txt" "1\n3\n")
    "ratings.txt" [0, 1] [[7, 7, 7]] [[7, 7, 7]] (by decide)

end KappaStatistic

namespace StatisticsOnImage

/-! ## The properties of `DetermineHistogramMaximum` -/

/-- Numbers below `2 ^ precision` are converted exactly. -/
theorem roundToPrecision_exact (precision n : Nat) (h : n < 2 ^ precision) :
    roundToPrecision precision n = n := by
  simp [roundToPrecision, h]

/-- The epsilon of the function bounds the bin size from below. -/
theorem histogramEpsilon_le_binsize (typeEpsilon maxPixelValue minPixelValue : ℚ)
    (numberOfBins : Nat) :
    histogramEpsilon typeEpsilon
      ≤ histogramBinsize typeEpsilon maxPixelValue minPixelValue numberOfBins :=
  le_max_right _ _

/-- The epsilon of the function bounds the upper margin from below. -/
theorem histogramEpsilon_le_uppermargin (typeEpsilon maxPixelValue minPixelValue : ℚ)
    (numberOfBins : Nat) :
    histogramEpsilon typeEpsilon
      ≤ histogramUppermargin typeEpsilon maxPixelValue minPixelValue numberOfBins :=
  le_max_left _ _

/-- C15 (the code diverges): for the pixel type `unsigned long` (64 bits,
arithmetic modulo `2 ^ 64`) and the real type `double` (53 bits of
significand), the maximum `2 ^ 53` is not the largest value of the pixel type,
yet the sum `2 ^ 53 + 1` is converted to the double `2 ^ 53`, the check
`histogramMax <= maxPixelValue` holds and the exception is raised. -/
theorem DetermineHistogramMaximum_integer_rounding :
    (2 ^ 53 : Nat) < 2 ^ 64 ∧ (2 ^ 53 : Nat) ≠ 2 ^ 64 - 1 ∧
      roundToPrecision 53 (2 ^ 53 + 1) = 2 ^ 53 ∧
      DetermineHistogramMaximum_integer 64 32 53 (2 ^ 53) 0 10
        = HistogramResult.raised overflowMessage := by
  decide!

/-- Where the code does what its comment says: for an unsigned integer pixel
type at least as wide as `int` (arithmetic modulo `2 ^ width`) whose values
are all values of the real type (`width` is at most the number of bits of its
significand), the exception is raised exactly when `maxPixelValue` is the
largest value of the pixel type; for every other `maxPixelValue` the function
returns with `histogramMax = maxPixelValue + 1`; the outcome does not depend
on `minPixelValue` and `numberOfBins`. -/
theorem DetermineHistogramMaximum_integer_exact (width intWidth precision : Nat)
    (maxPixelValue minPixelValue numberOfBins : Nat) (hint : intWidth ≤ width)
    (hw : width ≤ precision) (hmax : maxPixelValue < 2 ^ width) :
    (DetermineHistogramMaximum_integer width intWidth precision maxPixelValue minPixelValue
        numberOfBins = HistogramResult.raised overflowMessage ↔
        maxPixelValue = 2 ^ width - 1) ∧
      (maxPixelValue ≠ 2 ^ width - 1 →
        DetermineHistogramMaximum_integer width intWidth precision maxPixelValue minPixelValue
          numberOfBins = HistogramResult.returned (maxPixelValue + 1)) ∧
      (∀ otherMin otherBins,
        DetermineHistogramMaximum_integer width intWidth precision maxPixelValue otherMin
            otherBins
          = DetermineHistogramMaximum_integer width intWidth precision maxPixelValue
            minPixelValue numberOfBins) := by
  have hpow : 2 ^ width ≤ 2 ^ precision := Nat.pow_le_pow_right (by norm_num) hw
  have hmod : (maxPixelValue + 1) % 2 ^ width < 2 ^ width := Nat.mod_lt _ (by positivity)
  have hexact := roundToPrecision_exact precision ((maxPixelValue + 1) % 2 ^ width) (by omega)
  have hnot : ¬ 2 ^ width ≤ (maxPixelValue + 1) % 2 ^ width := by omega
  have hwide : ¬ width < intWidth := by omega
  by_cases htop : maxPixelValue = 2 ^ width - 1
  · have hsum : (maxPixelValue + 1) % 2 ^ width = 0 := by
      have : maxPixelValue + 1 = 2 ^ width := by omega
      rw [this, Nat.mod_self]
    rw [hsum] at hexact hnot
    have hres : DetermineHistogramMaximum_integer width intWidth precision maxPixelValue
        minPixelValue numberOfBins = HistogramResult.raised overflowMessage := by
      simp only [DetermineHistogramMaximum_integer, hwide, false_and, if_false, hsum, hexact,
        hnot, Nat.zero_le, if_true]
    exact ⟨⟨fun _ => htop, fun _ => hres⟩, fun h => absurd htop h, fun _ _ => rfl⟩
  · have hsum : (maxPixelValue + 1) % 2 ^ width = maxPixelValue + 1 :=
      Nat.mod_eq_of_lt (by omega)
    have hgt : ¬ maxPixelValue + 1 ≤ maxPixelValue := by omega
    have hres : DetermineHistogramMaximum_integer width intWidth precision maxPixelValue
        minPixelValue numberOfBins = HistogramResult.returned (maxPixelValue + 1) := by
      have hnot' : ¬ 2 ^ width ≤ maxPixelValue + 1 := by omega
      simp only [DetermineHistogramMaximum_integer, hwide, false_and, if_false, hsum,
        roundToPrecision_exact precision (maxPixelValue + 1) (by omega), hnot', hgt]
    refine ⟨⟨fun h => ?_, fun h => absurd h htop⟩, fun _ => hres, fun _ _ => rfl⟩
    rw [hres] at h
    cases h

/-- C16: for a floating pixel type in exact arithmetic, with
`numberOfBins > 0` and `epsilon > 0` (whatever the order of the minimum and
the maximum), `binsize >= epsilon`, `uppermargin >= epsilon` and
`histogramMax >= maxPixelValue + uppermargin`; hence
`histogramMax > maxPixelValue`, the function returns that `histogramMax`, and
the overflow exception is not raised. -/
theorem DetermineHistogramMaximum_floating_margins (typeEpsilon maxPixelValue minPixelValue : ℚ)
    (numberOfBins : Nat) (hbins : 0 < numberOfBins)
    (heps : 0 < histogramEpsilon typeEpsilon) :
    histogramEpsilon typeEpsilon
        ≤ histogramBinsize typeEpsilon maxPixelValue minPixelValue numberOfBins ∧
      histogramEpsilon typeEpsilon
        ≤ histogramUppermargin typeEpsilon maxPixelValue minPixelValue numberOfBins ∧
      maxPixelValue + histogramUppermargin typeEpsilon maxPixelValue minPixelValue numberOfBins
        ≤ histogramMaxValue typeEpsilon maxPixelValue minPixelValue numberOfBins ∧
      maxPixelValue < histogramMaxValue typeEpsilon maxPixelValue minPixelValue numberOfBins ∧
      DetermineHistogramMaximum_floating typeEpsilon maxPixelValue minPixelValue numberOfBins
        = HistogramResult.returned
          (histogramMaxValue typeEpsilon maxPixelValue minPixelValue numberOfBins) ∧
      DetermineHistogramMaximum_floating typeEpsilon maxPixelValue minPixelValue numberOfBins
        ≠ HistogramResult.raised overflowMessage := by
  have h1 := histogramEpsilon_le_binsize typeEpsilon maxPixelValue minPixelValue numberOfBins
  have h2 := histogramEpsilon_le_uppermargin typeEpsilon maxPixelValue minPixelValue numberOfBins
  have h3 : maxPixelValue
      + histogramUppermargin typeEpsilon maxPixelValue minPixelValue numberOfBins
      ≤ histogramMaxValue typeEpsilon maxPixelValue minPixelValue numberOfBins :=
    le_max_right _ _
  have h4 : maxPixelValue
      < histogramMaxValue typeEpsilon maxPixelValue minPixelValue numberOfBins := by linarith
  have hres : DetermineHistogramMaximum_floating typeEpsilon maxPixelValue minPixelValue
      numberOfBins = HistogramResult.returned
        (histogramMaxValue typeEpsilon maxPixelValue minPixelValue numberOfBins) := by
    have hb : ¬ numberOfBins = 0 := by omega
    simp only [DetermineHistogramMaximum_floating, hb, if_false, not_le.2 h4]
  refine ⟨h1, h2, h3, h4, hres, ?_⟩
  rw [hres]
  intro h
  cases h

/-- C16 (witness): the pixel values between `-10` and `-5` in 5 bins, with
the epsilon `2 ^ -23 = 1/8388608` of `float`. -/
theorem DetermineHistogramMaximum_floating_margins_witness :
    DetermineHistogramMaximum_floating (1 / 8388608) (-5) (-10) 5
      = HistogramResult.returned (histogramMaxValue (1 / 8388608) (-5) (-10) 5) :=
  (DetermineHistogramMaximum_floating_margins (1 / 8388608) (-5) (-10) 5 (by decide)
    (by decide!)).2.2.2.2.1

/-- In exact arithmetic, where both roundings are the identity, the function
with roundings is the function of exact arithmetic. -/
theorem DetermineHistogramMaximum_rounded_id (typeEpsilon maxPixelValue minPixelValue : ℚ)
    (numberOfBins : Nat) :
    DetermineHistogramMaximum_rounded id id typeEpsilon maxPixelValue minPixelValue numberOfBins
      = DetermineHistogramMaximum_floating typeEpsilon maxPixelValue minPixelValue
        numberOfBins := by
  simp only [DetermineHistogramMaximum_rounded, DetermineHistogramMaximum_floating,
    roundedHistogramMax, histogramMaxValue, roundedUppermargin, histogramUppermargin,
    roundedBinsize, histogramBinsize, roundedEpsilon, histogramEpsilon, id]

end StatisticsOnImage
